import Mathlib

/-!
Verification development for the SunScrape lookup/matching/enrichment core
(sunscrape/candidate_lookup.py and sunscrape/committee_lookup.py).

Strings are modelled as lists of characters; Python str operations used by
the code (split/join, strip, lower, the two re.sub patterns) are embedded
as executable functions on character lists.  ASCII case mapping models
Python str.lower for the ASCII range, which is the range exercised by the
roster data.
-/

namespace SunScrape

abbrev Str := List Char

/-- isSpace models the Python whitespace class used by str.split() and
str.strip() (space, tab, newline, carriage return, vertical tab, form feed). -/
def isSpace (c : Char) : Bool :=
  c = ' ' || c = '\t' || c = '\n' || c = '\r' || c = '\x0b' || c = '\x0c'

/-- pyLower models Python str.lower on a single ASCII character. -/
def pyLower (c : Char) : Char :=
  if h : 65 ≤ c.toNat ∧ c.toNat ≤ 90 then
    ⟨c.val + 32, by
      show Nat.isValidChar (c.val + 32).toNat
      have hv : (c.val + 32).toNat = c.toNat + 32 := by
        rw [UInt32.toNat_add]
        have h1 : ((32 : UInt32)).toNat = 32 := rfl
        have h2 : c.val.toNat = c.toNat := rfl
        rw [h1, h2]
        apply Nat.mod_eq_of_lt
        show c.toNat + 32 < 4294967296
        omega
      rw [hv]
      show c.toNat + 32 < 55296 ∨ _
      exact Or.inl (by omega)⟩
  else c

/-- pyStripLeft models str.lstrip for a character class given by p. -/
def pyStripLeft (p : Char → Bool) (s : Str) : Str := s.dropWhile p

/-- pyStripRight models str.rstrip for a character class given by p. -/
def pyStripRight (p : Char → Bool) (s : Str) : Str := (s.reverse.dropWhile p).reverse

/-- pyStrip models Python str.strip for a character class given by p
(both ends). -/
def pyStrip (p : Char → Bool) (s : Str) : Str := pyStripRight p (pyStripLeft p s)

/-- stripWs is str.strip() (whitespace at both ends). -/
def stripWs (s : Str) : Str := pyStrip isSpace s

/-- stripComma is str.strip of the single character comma. -/
def stripComma (s : Str) : Str := pyStrip (fun c => c = ',') s

/-- wordsAux is the worker for str.split(): it accumulates the current word
(reversed) and emits words at whitespace boundaries. -/
def wordsAux : Str → Str → List Str
  | [], acc => if acc = [] then [] else [acc.reverse]
  | c :: rest, acc =>
    if isSpace c then
      if acc = [] then wordsAux rest [] else acc.reverse :: wordsAux rest []
    else wordsAux rest (c :: acc)

/-- pySplit models Python str.split() with no argument: split on runs of
whitespace, discarding empty pieces. -/
def pySplit (s : Str) : List Str := wordsAux s []

/-- joinSp models ' '.join applied to a list of words. -/
def joinSp : List Str → Str
  | [] => []
  | [w] => w
  | w :: ws => w ++ ' ' :: joinSp ws

/-- collapse models the idiom ' '.join(name.split()) used by both
normalizers to collapse internal whitespace runs. -/
def collapse (s : Str) : Str := joinSp (pySplit s)

/-- startsWithB v s is Python s.startswith(v). -/
def startsWithB : Str → Str → Bool
  | [], _ => true
  | _ :: _, [] => false
  | c :: cs, d :: ds => c = d && startsWithB cs ds

/-- containsSub hay needle is Python needle in hay (substring containment). -/
def containsSub : Str → Str → Bool
  | hay, needle =>
    startsWithB needle hay ||
      match hay with
      | [] => false
      | _ :: t => containsSub t needle

/-- rpGo is the worker for the re.sub(r'parenthesized', '') pass: while no
open parenthesis is pending it copies characters; from an open parenthesis
on it buffers characters until a close parenthesis deletes the whole
buffered group, or the end of input re-emits the buffer verbatim (an open
parenthesis with no later close parenthesis matches nothing). -/
def rpGo : Str → Option Str → Str
  | [], none => []
  | [], some acc => '(' :: acc.reverse
  | c :: rest, none => if c = '(' then rpGo rest (some []) else c :: rpGo rest none
  | c :: rest, some acc => if c = ')' then rpGo rest none else rpGo rest (some (c :: acc))

/-- removeParens models re.sub removing every parenthesized group
(candidate normalizer, first pass). -/
def removeParens (s : Str) : Str := rpGo s none

/-- candSuffixAlts is the honorific alternation of the candidate suffix
regex, lower-cased for case-insensitive comparison. -/
def candSuffixAlts : List Str :=
  [('j' :: ['r']), ('j' :: ['r', '.']), ('s' :: ['r']), ('s' :: ['r', '.']),
   ('i' :: ['i']), ('i' :: ['i', 'i']), ('i' :: ['v']), (['v'])]

/-- candSuffixFrom s decides whether the candidate suffix regex (one or
more whitespace, a comma, optional whitespace, an honorific, end of
string) matches the whole of s starting at its first character. -/
def candSuffixFrom (s : Str) : Bool :=
  let ws1 := s.takeWhile isSpace
  let r1 := s.dropWhile isSpace
  ws1 ≠ [] &&
    match r1 with
    | ',' :: r2 =>
      let r3 := r2.dropWhile isSpace
      candSuffixAlts.contains (r3.map pyLower)
    | _ => false

/-- removeCandSuffix models re.sub for the candidate honorific-suffix
pattern: scan left to right for the first position where the anchored
suffix pattern matches and delete from there to the end. -/
def removeCandSuffix : Str → Str
  | [] => []
  | c :: rest => if candSuffixFrom (c :: rest) then [] else c :: removeCandSuffix rest

/-- comSuffixAlts is the organizational-designator alternation of the
committee suffix regex, lower-cased. -/
def comSuffixAlts : List Str :=
  [('p' :: ['c']), ('p' :: ['a', 'c']), ('i' :: ['n', 'c']), ('l' :: ['l', 'c']),
   ('c' :: ['o', 'r', 'p']), ('c' :: ['o', 'r', 'p', 'o', 'r', 'a', 't', 'i', 'o', 'n']),
   ('c' :: ['o', 'm', 'm', 'i', 't', 't', 'e', 'e'])]

/-- comSuffixFrom s decides whether the committee suffix regex (one or
more whitespace, a designator, optional whitespace, end of string)
matches the whole of s starting at its first character. -/
def comSuffixFrom (s : Str) : Bool :=
  let ws1 := s.takeWhile isSpace
  let r1 := (s.dropWhile isSpace).map pyLower
  ws1 ≠ [] &&
    comSuffixAlts.any (fun alt =>
      startsWithB alt r1 && (r1.drop alt.length).all isSpace)

/-- removeComSuffix models re.sub for the committee designator-suffix
pattern: first matching position wins, deleting to the end of string. -/
def removeComSuffix : Str → Str
  | [] => []
  | c :: rest => if comSuffixFrom (c :: rest) then [] else c :: removeComSuffix rest

/-- normalize_name models candidate_lookup.normalize_name: remove
parenthesized party annotations, remove a trailing honorific suffix,
collapse whitespace, strip, strip commas, strip. -/
def normalize_name (s : Str) : Str :=
  if s = [] then []
  else
    let s1 := removeParens s
    let s2 := removeCandSuffix s1
    let s3 := stripWs (collapse s2)
    stripWs (stripComma s3)

/-- normalize_committee_name models
committee_lookup.normalize_committee_name: remove one trailing
organizational designator, collapse whitespace, strip, optionally
lower-case. -/
def normalize_committee_name (s : Str) (lowercase : Bool) : Str :=
  if s = [] then []
  else
    let s1 := removeComSuffix s
    let s2 := stripWs (collapse s1)
    if lowercase then s2.map pyLower else s2

/-- splitAtComma models name.split(',', 1): split at the first comma,
returning the parts before and after it, or nothing when no comma occurs. -/
def splitAtComma : Str → Option (Str × Str)
  | [] => Option.none
  | c :: rest =>
    if c = ',' then some ([], rest)
    else
      match splitAtComma rest with
      | some (a, b) => some (c :: a, b)
      | Option.none => Option.none

/-- joinCommaSp models ', '.join applied to a list of words. -/
def joinCommaSp : List Str → Str
  | [] => []
  | [w] => w
  | w :: ws => w ++ ',' :: ' ' :: joinCommaSp ws

/-- build_full_name models candidate_lookup.build_full_name:
"Last, First Middle" with the middle part included only when non-blank. -/
def build_full_name (first last middle : Str) : Str :=
  let base := [stripWs last, stripWs first]
  let parts :=
    if middle ≠ [] ∧ stripWs middle ≠ [] then base ++ [stripWs middle] else base
  joinCommaSp parts

/-- parse_name_components models candidate_lookup.parse_name_components:
try "Last, First Middle" at the first comma (falling through when nothing
follows the comma), then "First Middle Last" on whitespace, then a single
word as a last name. Returns (first, last, middle). -/
def parse_name_components (name : Str) : Str × Str × Str :=
  let n := normalize_name name
  let viaWs : Str × Str × Str :=
    match pySplit n with
    | [] => ([], [], [])
    | [w] => ([], w, [])
    | f :: m :: rest =>
      (f, (m :: rest).getLastD [],
        if rest = [] then [] else joinSp ((m :: rest).dropLast))
  match splitAtComma n with
  | some (p0, p1) =>
    match pySplit (stripWs p1) with
    | f :: ms => (f, stripWs p0, if ms = [] then [] else joinSp ms)
    | [] => viaWs
  | Option.none => viaWs

/-- get_search_variants models committee_lookup.get_search_variants: the
normalized term, plus the term without its last word when that word has at
most three characters (a truncation signal). -/
def get_search_variants (searchTerm : Str) : List Str :=
  let normalized := normalize_committee_name searchTerm true
  let variants := [normalized]
  let words := pySplit normalized
  if words.length > 1 then
    let lastWord := words.getLastD []
    if lastWord.length ≤ 3 then
      let variant := joinSp words.dropLast
      if variant ≠ [] then variants ++ [variant] else variants
    else variants
  else variants

/-! Python dictionaries and field values. -/

/-- PyVal models a Python field value as used by the lookup subsystem:
either None or a string. -/
inductive PyVal where
  | vnone : PyVal
  | vstr : Str → PyVal
deriving DecidableEq, Repr

/-- falsy models Python truthiness on a field value. -/
def falsy : PyVal → Bool
  | PyVal.vnone => true
  | PyVal.vstr s => s = []

/-- pvStr coerces a field value to a string, reading None as the empty
string (the lookup code only reaches this on string-valued fields). -/
def pvStr : PyVal → Str
  | PyVal.vnone => []
  | PyVal.vstr s => s

/-- Txn models a Python dict record (transaction, candidate or committee
row) as an insertion-ordered association list with unique keys. -/
abbrev Txn := List (Str × PyVal)

/-- aget? is dictionary lookup. -/
def aget? {κ β : Type} [DecidableEq κ] (m : List (κ × β)) (k : κ) : Option β :=
  match m with
  | [] => Option.none
  | (k', v) :: rest => if k' = k then some v else aget? rest k

/-- aset is dictionary assignment: replace in place, else append. -/
def aset {κ β : Type} [DecidableEq κ] (m : List (κ × β)) (k : κ) (v : β) : List (κ × β) :=
  match m with
  | [] => [(k, v)]
  | (k', v') :: rest => if k' = k then (k, v) :: rest else (k', v') :: aset rest k v

/-- dictGet t k d is Python t.get(k, d). -/
def dictGet (t : Txn) (k : Str) (d : PyVal) : PyVal := (aget? t k).getD d

/-- dictGetStr t k is Python t.get(k, '') coerced to a string. -/
def dictGetStr (t : Txn) (k : Str) : Str := pvStr (dictGet t k (PyVal.vstr []))

/-- dictSet t k v is Python dict assignment on a record. -/
def dictSet (t : Txn) (k : Str) (v : PyVal) : Txn := aset t k v

/-- idxApp models defaultdict(list): index[k].append(a). -/
def idxApp {κ : Type} [DecidableEq κ] (m : List (κ × List Str)) (k : κ) (a : Str) :
    List (κ × List Str) :=
  match m with
  | [] => [(k, [a])]
  | (k', l) :: rest => if k' = k then (k', l ++ [a]) :: rest else (k', l) :: idxApp rest k a

/-- idxGet reads an index entry list (empty when the key is absent). -/
def idxGet {κ : Type} [DecidableEq κ] (m : List (κ × List Str)) (k : κ) : List Str :=
  (aget? m k).getD []

/-! Field-name constants of the roster CSVs and scraped records. -/

def kAcctNum : Str := ("AcctNum").toList
def kNameFirst : Str := ("NameFirst").toList
def kNameLast : Str := ("NameLast").toList
def kNameMiddle : Str := ("NameMiddle").toList
def kPartyName : Str := ("PartyName").toList
def kPartyCode : Str := ("PartyCode").toList
def kElectionID : Str := ("ElectionID").toList
def kOfficeDesc : Str := ("OfficeDesc").toList
def kStatusDesc : Str := ("StatusDesc").toList
def kEmail : Str := ("Email").toList
def kPhone : Str := ("Phone").toList
def kCommitteeNameSp : Str := ("Committee Name").toList
def kCommitteeName : Str := ("CommitteeName").toList
def kName : Str := ("Name").toList
def kComName : Str := ("ComName").toList
def kStatus : Str := ("Status").toList
def kCommitteeStatus : Str := ("Committee Status").toList
def kType : Str := ("Type").toList
def kCommitteeType : Str := ("Committee Type").toList

/-! Match results and lookup state. -/

/-- MatchResult models the match dictionaries produced by the find
methods; entity is the stored candidate/committee record, and entity_type
is present (some) only on committee matches, mirroring which keys the
source dictionaries carry. -/
structure MatchResult where
  entity : Txn
  match_method : Str
  match_confidence : ℚ
  account : Str
  entity_type : Option Str
deriving DecidableEq, Repr

/-- CandState is the in-memory state of a CandidateLookup instance. -/
structure CandState where
  candidates : List (Str × Txn)
  name_index : List (Str × List Str)
  lastname_index : List (Str × List Str)
  component_index : List ((Str × Str) × List Str)
  total_candidates : ℕ
  cache : List ((Str × Option Str) × List MatchResult)
deriving DecidableEq, Repr

def emptyCand : CandState := ⟨[], [], [], [], 0, []⟩

/-- index_candidate models CandidateLookup._index_candidate: append the
account under the normalized full-name, last-name and (first, last)
component keys, skipping empty keys. -/
def index_candidate (st : CandState) (acct : Str) (cand : Txn) : CandState :=
  let first := stripWs (dictGetStr cand kNameFirst)
  let last := stripWs (dictGetStr cand kNameLast)
  let middle := stripWs (dictGetStr cand kNameMiddle)
  let full_name := build_full_name first last middle
  let normalized_full := normalize_name full_name
  let st1 :=
    if normalized_full ≠ [] then
      { st with name_index := idxApp st.name_index normalized_full acct }
    else st
  let normalized_last := normalize_name last
  let st2 :=
    if normalized_last ≠ [] then
      { st1 with lastname_index := idxApp st1.lastname_index normalized_last acct }
    else st1
  let normalized_first := normalize_name first
  if normalized_first ≠ [] ∧ normalized_last ≠ [] then
    { st2 with component_index := idxApp st2.component_index (normalized_first, normalized_last) acct }
  else st2

/-- candAddRow is the per-row body of CandidateLookup._load_from_file:
store the row under its account number, then index it. -/
def candAddRow (st : CandState) (row : Txn) : CandState × Bool :=
  let acct := stripWs (dictGetStr row kAcctNum)
  if acct = [] then (st, false)
  else
    let st1 := { st with candidates := aset st.candidates acct row }
    (index_candidate st1 acct row, true)

/-- load_from_file_cand models CandidateLookup._load_from_file over an
already-parsed CSV source (header names, then rows); a source without
headers is a format error (ValueError). -/
def load_from_file_cand (st : CandState) (fieldnames : Option (List Str)) (rows : List Txn) :
    Except Str (CandState × ℕ) :=
  match fieldnames with
  | Option.none => Except.error (("CSV file has no headers").toList)
  | some _ =>
    let p := rows.foldl
      (fun (p : CandState × ℕ) row =>
        let q := candAddRow p.1 row
        (q.1, if q.2 then p.2 + 1 else p.2))
      (st, 0)
    Except.ok ({ p.1 with total_candidates := p.1.total_candidates + p.2 }, p.2)

/-- party_code_map is the fixed party-code table of _party_matches. -/
def party_code_map : List (Str × Str) :=
  [(("democrat").toList, ("DEM").toList), (("republican").toList, ("REP").toList),
   (("dem").toList, ("DEM").toList), (("rep").toList, ("REP").toList)]

/-- party_matches models CandidateLookup._party_matches. -/
def party_matches (candidate : Txn) (party : Option Str) : Bool :=
  match party with
  | Option.none => true
  | some party =>
    let candidate_party := stripWs (dictGetStr candidate kPartyName)
    let candidate_party_code := stripWs (dictGetStr candidate kPartyCode)
    let party_lower := party.map pyLower
    let candidate_party_lower := candidate_party.map pyLower
    if containsSub candidate_party_lower party_lower ||
        containsSub party_lower candidate_party_lower then true
    else
      match aget? party_code_map party_lower with
      | some code => candidate_party_code = code
      | Option.none => false

/-- insertDesc inserts into a list sorted by descending confidence,
placing the new element before the first element not strictly above it
(the stable position). -/
def insertDesc (x : MatchResult) : List MatchResult → List MatchResult
  | [] => [x]
  | y :: ys =>
    if x.match_confidence < y.match_confidence then y :: insertDesc x ys
    else x :: y :: ys

/-- sortByConfDesc models matches.sort(key=confidence, reverse=True),
Python's stable sort specialised to the confidence key. -/
def sortByConfDesc : List MatchResult → List MatchResult
  | [] => []
  | x :: xs => insertDesc x (sortByConfDesc xs)

/-- candExactStep is one iteration of the exact-match loop of
find_by_name: skip accounts already seen, read the stored record, and on a
party match emit an exact match and mark the account seen. -/
def candExactStep (st : CandState) (party : Option Str)
    (p : List MatchResult × List Str) (acct : Str) : List MatchResult × List Str :=
  if acct ∈ p.2 then p
  else
    let cand := (aget? st.candidates acct).getD []
    if party_matches cand party then
      (p.1 ++ [⟨cand, ("exact").toList, 1, acct, Option.none⟩], p.2 ++ [acct])
    else p

/-- candComponentStep is one iteration of the component-match loop. -/
def candComponentStep (st : CandState) (party : Option Str)
    (p : List MatchResult × List Str) (acct : Str) : List MatchResult × List Str :=
  if acct ∈ p.2 then p
  else
    let cand := (aget? st.candidates acct).getD []
    if party_matches cand party then
      (p.1 ++ [⟨cand, ("component").toList, mkRat 95 100, acct, Option.none⟩], p.2 ++ [acct])
    else p

/-- find_by_name_cand models CandidateLookup.find_by_name: cache check,
exact strategy, component strategy with de-duplication, stable sort by
descending confidence, cache write. -/
def find_by_name_cand (st : CandState) (name : Str) (party : Option Str)
    (use_cache : Bool) : CandState × List MatchResult :=
  if name = [] then (st, [])
  else
    let ns := normalize_name name
    if ns = [] then (st, [])
    else
      match (if use_cache then aget? st.cache (ns, party) else Option.none) with
      | some r => (st, r)
      | Option.none =>
        let p1 :=
          if (aget? st.name_index ns).isSome then
            (idxGet st.name_index ns).foldl (candExactStep st party) ([], [])
          else ([], [])
        let c := parse_name_components name
        let p2 :=
          if c.1 ≠ [] ∧ c.2.1 ≠ [] then
            let key := (normalize_name c.1, normalize_name c.2.1)
            if (aget? st.component_index key).isSome then
              (idxGet st.component_index key).foldl (candComponentStep st party) p1
            else p1
          else p1
        let ms := sortByConfDesc p2.1
        let st' := if use_cache then { st with cache := aset st.cache (ns, party) ms } else st
        (st', ms)

/-- CommState is the in-memory state of a CommitteeLookup instance. -/
structure CommState where
  committees : List (Str × Txn)
  name_index : List (Str × List Str)
  total_committees : ℕ
  cache : List (Str × List MatchResult)
deriving DecidableEq, Repr

def emptyComm : CommState := ⟨[], [], 0, []⟩

/-- index_committee models CommitteeLookup._index_committee. -/
def index_committee (st : CommState) (acct : Str) (committee_name : Str) : CommState :=
  let normalized_lower := normalize_committee_name committee_name true
  if normalized_lower ≠ [] then
    { st with name_index := idxApp st.name_index normalized_lower acct }
  else st

/-- commAddRow is the per-row body of CommitteeLookup._load_from_file:
skip rows without a non-empty account number or committee name, else store
and index. -/
def commAddRow (st : CommState) (row : Txn) : CommState × Bool :=
  let acct := stripWs (dictGetStr row kAcctNum)
  if acct = [] then (st, false)
  else
    let committee_name := stripWs (dictGetStr row kCommitteeNameSp)
    if committee_name = [] then (st, false)
    else
      let st1 := { st with committees := aset st.committees acct row }
      (index_committee st1 acct committee_name, true)

/-- load_from_file_comm models CommitteeLookup._load_from_file over an
already-parsed CSV source. -/
def load_from_file_comm (st : CommState) (fieldnames : Option (List Str)) (rows : List Txn) :
    Except Str (CommState × ℕ) :=
  match fieldnames with
  | Option.none => Except.error (("CSV file has no headers").toList)
  | some _ =>
    let p := rows.foldl
      (fun (p : CommState × ℕ) row =>
        let q := commAddRow p.1 row
        (q.1, if q.2 then p.2 + 1 else p.2))
      (st, 0)
    Except.ok ({ p.1 with total_committees := p.1.total_committees + p.2 }, p.2)

/-- commExactStep is one iteration of the exact-match loop of the
committee find_by_name (no party filter). -/
def commExactStep (st : CommState)
    (p : List MatchResult × List Str) (acct : Str) : List MatchResult × List Str :=
  if acct ∈ p.2 then p
  else
    let committee := (aget? st.committees acct).getD []
    (p.1 ++ [⟨committee, ("exact").toList, 1, acct, some (("committee").toList)⟩],
     p.2 ++ [acct])

/-- find_by_name_comm models CommitteeLookup.find_by_name, with the
online search abstracted as an oracle from the raw query name to an
optional online match (None models both a miss and a swallowed failure,
exactly as _search_online returns). The cache key is the normalized
lower-cased name alone, as in the source. -/
def find_by_name_comm (online : Str → Option MatchResult) (st : CommState) (name : Str)
    (use_cache fallback_search : Bool) : CommState × List MatchResult :=
  if name = [] then (st, [])
  else
    let ns := normalize_committee_name name true
    if ns = [] then (st, [])
    else
      match (if use_cache then aget? st.cache ns else Option.none) with
      | some r => (st, r)
      | Option.none =>
        let p1 :=
          if (aget? st.name_index ns).isSome then
            (idxGet st.name_index ns).foldl (commExactStep st) ([], [])
          else ([], [])
        let sp :=
          if p1.1 = [] ∧ fallback_search then
            match online name with
            | some om =>
              let st2 :=
                if (aget? st.committees om.account).isNone then
                  let cn := dictGet om.entity kCommitteeNameSp PyVal.vnone
                  let n2 := dictGet om.entity kName PyVal.vnone
                  let found_name :=
                    if ¬falsy cn then pvStr cn
                    else if ¬falsy n2 then pvStr n2
                    else name
                  let stA := { st with committees := aset st.committees om.account om.entity }
                  let stB := index_committee stA om.account found_name
                  { stB with total_committees := stB.total_committees + 1 }
                else st
              (st2, [om])
            | Option.none => (st, p1.1)
          else (st, p1.1)
        let st3 := if use_cache then { sp.1 with cache := aset sp.1.cache ns sp.2 } else sp.1
        (st3, sp.2)

/-! Online fallback search (CommitteeLookup._search_online). -/

/-- ScanSt is the running best of the result-row scan: best account,
best found name, best score. -/
structure ScanSt where
  best : Option Str
  bestName : Option Str
  score : ℚ
deriving DecidableEq, Repr

def scanInit : ScanSt := ⟨Option.none, Option.none, 0⟩

/-- onlineStrat2 is strategy 2 of _search_online for one result row: for
each variant, a start-of-string match scores len(variant)/len(result),
updating the best on a strictly greater score. -/
def onlineStrat2 (variants : List Str) (nf fname acct : Str) (st : ScanSt) : ScanSt :=
  variants.foldl
    (fun st v =>
      if startsWithB v nf then
        let sc : ℚ := if nf = [] then 0 else mkRat v.length nf.length
        if st.score < sc then ⟨some acct, some fname, sc⟩ else st
      else st)
    st

/-- onlineStrat3 is strategy 3 of _search_online for one result row: for
each variant, a containment match scores
len(variant)/max(len(result), len(variant)), updating the best on a
strictly greater score. -/
def onlineStrat3 (variants : List Str) (nf fname acct : Str) (st : ScanSt) : ScanSt :=
  variants.foldl
    (fun st v =>
      if containsSub nf v then
        let sc : ℚ := mkRat v.length (max nf.length v.length)
        if st.score < sc then ⟨some acct, some fname, sc⟩ else st
      else st)
    st

/-- scanRows is the result-row loop of _search_online.  A row is None when
the source would skip it (no cells, no link, or no '=' in the href), else
it carries (found name, account).  An exact normalized match breaks out of
the loop with score 1.  Strategy 3 of a row runs only when the running
best score is still zero after strategy 2 of that row, exactly as the
source's if best_score == 0.0 test does. -/
def scanRows (nsearch : Str) (variants : List Str) :
    List (Option (Str × Str)) → ScanSt → ScanSt
  | [], st => st
  | Option.none :: rest, st => scanRows nsearch variants rest st
  | some (fname, acct) :: rest, st =>
    let nf := normalize_committee_name fname true
    if nf = nsearch then ⟨some acct, some fname, 1⟩
    else
      let st1 := onlineStrat2 variants nf fname acct st
      let st2 := if st1.score = 0 then onlineStrat3 variants nf fname acct st1 else st1
      scanRows nsearch variants rest st2

/-- search_online models CommitteeLookup._search_online.  The transport
and HTML parsing are abstracted: resp is the parsed search response (a
list of tables of rows) or a transport/parse failure, and details is
_get_committee_details_online, which returns None on any failure (its own
blanket except).  The enclosing try/except of _search_online converts
every failure to None, which is what the error branch returns. -/
def search_online (resp : Except Unit (List (List (Option (Str × Str)))))
    (details : Str → Option Txn) (committee_name : Str) : Option MatchResult :=
  match resp with
  | Except.error _ => Option.none
  | Except.ok tables =>
    if tables.length < 3 then Option.none
    else
      let rows := tables.getD 2 []
      if rows.length < 2 then Option.none
      else
        let normalized_search := normalize_committee_name committee_name true
        let search_variants := get_search_variants (committee_name.take 50)
        let fin := scanRows normalized_search search_variants (rows.drop 1) scanInit
        match fin.best with
        | Option.none => Option.none
        | some best_acct =>
          if best_acct = [] then Option.none
          else
            match details best_acct with
            | Option.none => Option.none
            | some d =>
              if d = [] then Option.none
              else
                let bname :=
                  match fin.bestName with
                  | some bn => if bn ≠ [] then bn else committee_name
                  | Option.none => committee_name
                let committee_data : Txn :=
                  [(kAcctNum, PyVal.vstr best_acct),
                   (kCommitteeNameSp, PyVal.vstr bname),
                   (kName, PyVal.vstr bname),
                   (kType, PyVal.vstr (dictGetStr d (("type").toList))),
                   (kStatus, PyVal.vstr (dictGetStr d (("status").toList))),
                   (("Address").toList, PyVal.vstr (stripWs (dictGetStr d (("address").toList)))),
                   (kPhone, PyVal.vstr (dictGetStr d (("phone").toList))),
                   (("Chair").toList, PyVal.vstr (dictGetStr d (("chair").toList))),
                   (("Treasurer").toList, PyVal.vstr (dictGetStr d (("treasurer").toList))),
                   (("Registered Agent").toList, PyVal.vstr (dictGetStr d (("registered_agent").toList))),
                   (("Purpose").toList, PyVal.vstr (dictGetStr d (("purpose").toList))),
                   (("Affiliates").toList, PyVal.vstr (dictGetStr d (("affiliates").toList)))]
                some ⟨committee_data, ("online_fallback").toList, mkRat 9 10, best_acct,
                  some (("committee").toList)⟩

/-! Enrichment engine (CandidateLookup.merge_with_transactions). -/

/-- BestRes abstracts the per-group resolution of merge_with_transactions
(lines picking candidate_matches[0] or committee_matches[0]): the chosen
entity record, the entity type best_match.get('entity_type', 'candidate'),
and the matched account best_match['account']. -/
structure BestRes where
  entity : Txn
  etype : Str
  account : Str
deriving DecidableEq, Repr

def fEntityType : Str := ("entity_type").toList
def fEntityAccount : Str := ("entity_account").toList
def fEntityName : Str := ("entity_name").toList
def fEntityNameFirst : Str := ("entity_name_first").toList
def fEntityNameLast : Str := ("entity_name_last").toList
def fEntityNameMiddle : Str := ("entity_name_middle").toList
def fEntityElectionId : Str := ("entity_election_id").toList
def fEntityOffice : Str := ("entity_office").toList
def fEntityStatus : Str := ("entity_status").toList
def fEntityParty : Str := ("entity_party").toList
def fEntityEmail : Str := ("entity_email").toList
def fEntityPhone : Str := ("entity_phone").toList
def fEntityTypeDetail : Str := ("entity_type_detail").toList

/-- enrichFields is the fixed enrichment field set written onto every
output record. -/
def enrichFields : List Str :=
  [fEntityType, fEntityAccount, fEntityName, fEntityNameFirst, fEntityNameLast,
   fEntityNameMiddle, fEntityElectionId, fEntityOffice, fEntityStatus, fEntityParty,
   fEntityEmail, fEntityPhone, fEntityTypeDetail]

/-- strOr a b is the Python string idiom a or b. -/
def strOr (a b : Str) : Str := if a ≠ [] then a else b

/-- setMany t ps performs the dict assignments ps in order on t, modelling
a block of consecutive enriched_transaction[...] = ... statements. -/
def setMany (t : Txn) (ps : List (Str × PyVal)) : Txn :=
  ps.foldl (fun t p => dictSet t p.1 p.2) t

/-- nullFill writes every enrichment field as None onto a copy of the
transaction (the no-match and empty-name blocks of the source). -/
def nullFill (t : Txn) : Txn :=
  setMany t (enrichFields.map (fun f => (f, PyVal.vnone)))

/-- enrichOne builds one enriched transaction from the group's resolution,
following the three branches of the source: candidate fields, committee
fields (with non-applicable fields set to None), or all-None. -/
def enrichOne (b : Option BestRes) (t : Txn) : Txn :=
  match b with
  | some br =>
    if br.entity ≠ [] then
      let e := br.entity
      if br.etype = ("candidate").toList then
        setMany t
          [(fEntityType, PyVal.vstr br.etype),
           (fEntityAccount, PyVal.vstr br.account),
           (fEntityName, PyVal.vstr (build_full_name
             (dictGetStr e kNameFirst) (dictGetStr e kNameLast) (dictGetStr e kNameMiddle))),
           (fEntityNameFirst, PyVal.vstr (dictGetStr e kNameFirst)),
           (fEntityNameLast, PyVal.vstr (dictGetStr e kNameLast)),
           (fEntityNameMiddle, PyVal.vstr (dictGetStr e kNameMiddle)),
           (fEntityElectionId, PyVal.vstr (dictGetStr e kElectionID)),
           (fEntityOffice, PyVal.vstr (dictGetStr e kOfficeDesc)),
           (fEntityStatus, PyVal.vstr (dictGetStr e kStatusDesc)),
           (fEntityParty, PyVal.vstr (dictGetStr e kPartyName)),
           (fEntityEmail, PyVal.vstr (dictGetStr e kEmail)),
           (fEntityPhone, PyVal.vstr (dictGetStr e kPhone)),
           (fEntityTypeDetail, PyVal.vstr (("candidate").toList))]
      else
        setMany t
          [(fEntityType, PyVal.vstr br.etype),
           (fEntityAccount, PyVal.vstr br.account),
           (fEntityName, PyVal.vstr (strOr (dictGetStr e kCommitteeNameSp)
             (strOr (dictGetStr e kCommitteeName)
               (strOr (dictGetStr e kName) (dictGetStr e kComName))))),
           (fEntityNameFirst, PyVal.vnone),
           (fEntityNameLast, PyVal.vnone),
           (fEntityNameMiddle, PyVal.vnone),
           (fEntityElectionId, PyVal.vnone),
           (fEntityOffice, PyVal.vnone),
           (fEntityStatus, PyVal.vstr (strOr (dictGetStr e kStatus) (dictGetStr e kCommitteeStatus))),
           (fEntityParty, PyVal.vnone),
           (fEntityEmail, PyVal.vnone),
           (fEntityPhone, PyVal.vnone),
           (fEntityTypeDetail, PyVal.vstr (strOr (dictGetStr e kType) (dictGetStr e kCommitteeType)))]
    else nullFill t
  | Option.none => nullFill t

/-- txnName reads transaction.get(name_field, ''). -/
def txnName (t : Txn) (nameField : Str) : PyVal := dictGet t nameField (PyVal.vstr [])

/-- txnParty reads transaction.get(party_field) if party_field else None. -/
def txnParty (t : Txn) (partyField : Option Str) : PyVal :=
  match partyField with
  | some pf => dictGet t pf PyVal.vnone
  | Option.none => PyVal.vnone

/-- addGroup appends an index to its (name, party) group, creating the
group at the end on first occurrence (Python dict insertion order). -/
def addGroup (gs : List ((PyVal × PyVal) × List ℕ)) (key : PyVal × PyVal) (idx : ℕ) :
    List ((PyVal × PyVal) × List ℕ) :=
  match gs with
  | [] => [(key, [idx])]
  | (k, l) :: rest => if k = key then (k, l ++ [idx]) :: rest else (k, l) :: addGroup rest key idx

/-- buildGroupsAux is the grouping pre-pass of merge_with_transactions:
transactions with a falsy name go to the empty-name list, the rest are
grouped by (raw name, raw party). -/
def buildGroupsAux (nameField : Str) (partyField : Option Str) :
    List Txn → ℕ → List ((PyVal × PyVal) × List ℕ) → List ℕ →
    List ((PyVal × PyVal) × List ℕ) × List ℕ
  | [], _, gs, es => (gs, es)
  | t :: rest, i, gs, es =>
    let name := txnName t nameField
    if falsy name then buildGroupsAux nameField partyField rest (i + 1) gs (es ++ [i])
    else
      buildGroupsAux nameField partyField rest (i + 1)
        (addGroup gs (name, txnParty t partyField) i) es

/-- merge_with_transactions models CandidateLookup.merge_with_transactions
with the per-group lookup composition (find_by_name on candidates, then
the committee fallback, then best-match selection, source lines 462-483)
abstracted as the pure per-key function resolve; each distinct key is
resolved exactly once in the source, so any execution corresponds to some
such function.  Output slots are written by original index into a
pre-sized output, exactly as the source fills its pre-allocated list. -/
def merge_with_transactions (resolve : PyVal → PyVal → Option BestRes) (txns : List Txn)
    (nameField : Str) (partyField : Option Str) : List Txn :=
  if txns.length = 0 then []
  else
    let gp := buildGroupsAux nameField partyField txns 0 [] []
    let asgs : List (ℕ × Txn) :=
      (gp.1.map (fun g =>
        g.2.map (fun idx => (idx, enrichOne (resolve g.1.1 g.1.2) (txns.getD idx []))))).flatten
      ++ gp.2.map (fun idx => (idx, nullFill (txns.getD idx [])))
    let upd := asgs.foldl
      (fun (f : ℕ → Option Txn) p => fun j => if j = p.1 then some p.2 else f j)
      (fun _ => Option.none)
    (List.range txns.length).map (fun i => (upd i).getD [])

/-! Specification-level definitions used by the theorems. -/

/-- pairFreeB s holds when no open parenthesis in s is followed by a later
close parenthesis, i.e. the parenthesized-group regex has no match in s. -/
def pairFreeB : Str → Bool
  | [] => true
  | c :: rest => if c = '(' then !rest.contains ')' else pairFreeB rest

/-- rowExact ns r holds when result row r would take the exact-match break
of _search_online against normalized search string ns. -/
def rowExact (ns : Str) : Option (Str × Str) → Bool
  | Option.none => false
  | some (fname, _) => normalize_committee_name fname true = ns

/-- scoreOfStart is the strategy-2 score of one variant against one
normalized result name. -/
def scoreOfStart (v nf : Str) : ℚ := if nf = [] then 0 else mkRat v.length nf.length

/-- startMaxFrom folds the strategy-2 scores of the start-of-string
matching variants into a running maximum. -/
def startMaxFrom (vs : List Str) (nf : Str) (m : ℚ) : ℚ :=
  vs.foldl (fun m v => if startsWithB v nf then max m (scoreOfStart v nf) else m) m

/-- rowStartScore vs r is the best strategy-2 (start-of-string) score any
variant attains on row r. -/
def rowStartScore (vs : List Str) : Option (Str × Str) → ℚ
  | Option.none => 0
  | some (fname, _) => startMaxFrom vs (normalize_committee_name fname true) 0

/-- maxStartScore vs rows is the best start-of-string score across all
rows and variants. -/
def maxStartScore (vs : List Str) (rows : List (Option (Str × Str))) : ℚ :=
  rows.foldl (fun m r => max m (rowStartScore vs r)) 0

/-- rowInert ns vs r holds when row r can affect no scan state at all: it
is skipped, or it is not an exact match and no variant is even contained
in its normalized name. -/
def rowInert (ns : Str) (vs : List Str) : Option (Str × Str) → Bool
  | Option.none => true
  | some (fname, _) =>
    let nf := normalize_committee_name fname true
    nf ≠ ns && vs.all (fun v => !containsSub nf v)

/-- candWF st: every account number stored in any candidate index list is
a key of the primary candidate store. -/
def candWF (st : CandState) : Prop :=
  (∀ p ∈ st.name_index, ∀ a ∈ p.2, (aget? st.candidates a).isSome) ∧
  (∀ p ∈ st.lastname_index, ∀ a ∈ p.2, (aget? st.candidates a).isSome) ∧
  (∀ p ∈ st.component_index, ∀ a ∈ p.2, (aget? st.candidates a).isSome)

/-- commWF st: every account number in the committee name index is a key
of the primary committee store. -/
def commWF (st : CommState) : Prop :=
  ∀ p ∈ st.name_index, ∀ a ∈ p.2, (aget? st.committees a).isSome

/-- CandReach describes every candidate-lookup state reachable by a
sequence of loads and finds from a fresh instance. -/
inductive CandReach : CandState → Prop where
  | init : CandReach emptyCand
  | load (st : CandState) (hdr : Option (List Str)) (rows : List Txn) (st' : CandState) (n : ℕ)
      (h : CandReach st) (heq : load_from_file_cand st hdr rows = Except.ok (st', n)) :
      CandReach st'
  | find (st : CandState) (name : Str) (party : Option Str) (uc : Bool) (h : CandReach st) :
      CandReach (find_by_name_cand st name party uc).1

/-- CommReach describes every committee-lookup state reachable by loads
and finds (with any online oracle, covering the fallback back-fill). -/
inductive CommReach : CommState → Prop where
  | init : CommReach emptyComm
  | load (st : CommState) (hdr : Option (List Str)) (rows : List Txn) (st' : CommState) (n : ℕ)
      (h : CommReach st) (heq : load_from_file_comm st hdr rows = Except.ok (st', n)) :
      CommReach st'
  | find (st : CommState) (online : Str → Option MatchResult) (name : Str) (uc fb : Bool)
      (h : CommReach st) : CommReach (find_by_name_comm online st name uc fb).1

/-- mergeRes is the per-transaction resolution of merge_with_transactions:
None for a falsy name (and for no-match keys the resolver itself returns
None), else the group resolution of the transaction's (name, party) key. -/
def mergeRes (resolve : PyVal → PyVal → Option BestRes) (nameField : Str)
    (partyField : Option Str) (t : Txn) : Option BestRes :=
  if falsy (txnName t nameField) then Option.none
  else resolve (txnName t nameField) (txnParty t partyField)

/-! Concrete fixtures used by witnesses and counterexamples. -/

/-- exRow is a roster row for candidate Ron DeSantis, account 12345. -/
def exRow : Txn :=
  [(kAcctNum, PyVal.vstr (("12345").toList)), (kNameFirst, PyVal.vstr (("Ron").toList)),
   (kNameLast, PyVal.vstr (("DeSantis").toList))]

/-- exRowAcctOnly is a roster row carrying only an account number and no
name fields. -/
def exRowAcctOnly : Txn := [(kAcctNum, PyVal.vstr (("77").toList))]

/-- exCand is the candidate state after loading exRow once. -/
def exCand : CandState :=
  ((load_from_file_cand emptyCand (some []) [exRow]).toOption.getD (emptyCand, 0)).1

/-- exCand2 is the candidate state after loading exRow twice. -/
def exCand2 : CandState :=
  ((load_from_file_cand exCand (some []) [exRow]).toOption.getD (emptyCand, 0)).1

/-- exOm is an online-fallback committee match for account 9. -/
def exOm : MatchResult :=
  ⟨[(kCommitteeNameSp, PyVal.vstr (("Foo").toList))], ("online_fallback").toList,
   mkRat 9 10, ("9").toList, some (("committee").toList)⟩

/-- exOnline is an online oracle that always finds exOm. -/
def exOnline : Str → Option MatchResult := fun _ => some exOm

end SunScrape

namespace SunScrape

/-! Association-list and index lemmas. -/

theorem aget?_aset_self {κ β : Type} [DecidableEq κ] (m : List (κ × β)) (k : κ) (v : β) :
    aget? (aset m k v) k = some v := by
  induction m with
  | nil => simp [aset, aget?]
  | cons p rest ih =>
    obtain ⟨k', v'⟩ := p
    by_cases h : k' = k
    · simp [aset, h, aget?]
    · simp [aset, h, aget?, ih]

theorem aget?_aset_ne {κ β : Type} [DecidableEq κ] (m : List (κ × β)) {k' k : κ} (v : β)
    (h : k' ≠ k) : aget? (aset m k' v) k = aget? m k := by
  induction m with
  | nil => simp [aset, aget?, h]
  | cons p rest ih =>
    obtain ⟨k₀, v₀⟩ := p
    by_cases h0 : k₀ = k'
    · simp [aset, h0, aget?, h]
    · simp only [aset, h0, if_false, aget?]
      by_cases h1 : k₀ = k <;> simp [h1, ih]

theorem aget?_aset_isSome {κ β : Type} [DecidableEq κ] (m : List (κ × β)) (k' k : κ) (v : β)
    (h : (aget? m k).isSome) : (aget? (aset m k' v) k).isSome := by
  by_cases he : k' = k
  · subst he; simp [aget?_aset_self]
  · rw [aget?_aset_ne m v he]; exact h

theorem aget?_idxApp_self {κ : Type} [DecidableEq κ] (m : List (κ × List Str)) (k : κ) (a : Str) :
    aget? (idxApp m k a) k = some (idxGet m k ++ [a]) := by
  induction m with
  | nil => simp [idxApp, aget?, idxGet]
  | cons p rest ih =>
    obtain ⟨k₀, l₀⟩ := p
    by_cases h : k₀ = k
    · simp [idxApp, h, aget?, idxGet]
    · simp [idxApp, h, aget?, idxGet, ih]

theorem aget?_idxApp_ne {κ : Type} [DecidableEq κ] (m : List (κ × List Str)) {k' k : κ} (a : Str)
    (h : k' ≠ k) : aget? (idxApp m k' a) k = aget? m k := by
  induction m with
  | nil => simp [idxApp, aget?, h]
  | cons p rest ih =>
    obtain ⟨k₀, l₀⟩ := p
    by_cases h0 : k₀ = k'
    · simp [idxApp, h0, aget?, h]
    · simp only [idxApp, h0, if_false, aget?]
      by_cases h1 : k₀ = k <;> simp [h1, ih]

theorem idxGet_idxApp_self {κ : Type} [DecidableEq κ] (m : List (κ × List Str)) (k : κ) (a : Str) :
    idxGet (idxApp m k a) k = idxGet m k ++ [a] := by
  simp [idxGet, aget?_idxApp_self]

theorem idxApp_forall {κ : Type} [DecidableEq κ] (P : Str → Prop) (m : List (κ × List Str))
    (k : κ) (a : Str) (hm : ∀ p ∈ m, ∀ x ∈ p.2, P x) (ha : P a) :
    ∀ p ∈ idxApp m k a, ∀ x ∈ p.2, P x := by
  induction m with
  | nil =>
    intro p hp x hx
    simp [idxApp] at hp
    subst hp
    simp at hx
    subst hx; exact ha
  | cons q rest ih =>
    obtain ⟨k₀, l₀⟩ := q
    intro p hp x hx
    by_cases h : k₀ = k
    · simp only [idxApp, h, if_true] at hp
      rcases List.mem_cons.mp hp with he | hm'
      · subst he
        rcases List.mem_append.mp hx with hx' | hx'
        · exact hm (k₀, l₀) (by simp) x hx'
        · simp at hx'; subst hx'; exact ha
      · exact hm p (List.mem_cons_of_mem _ hm') x hx
    · simp only [idxApp, h, if_false] at hp
      rcases List.mem_cons.mp hp with he | hm'
      · subst he; exact hm (k₀, l₀) (by simp) x hx
      · exact ih (fun q hq => hm q (List.mem_cons_of_mem _ hq)) p hm' x hx

theorem aget?_append {κ β : Type} [DecidableEq κ] (xs ys : List (κ × β)) (k : κ) :
    aget? (xs ++ ys) k =
      match aget? xs k with
      | some v => some v
      | Option.none => aget? ys k := by
  induction xs with
  | nil => simp [aget?]
  | cons p rest ih =>
    obtain ⟨k₀, v₀⟩ := p
    by_cases h : k₀ = k <;> simp [aget?, h, ih]

theorem aget?_dictSet (t : Txn) (k' k : Str) (v : PyVal) :
    aget? (dictSet t k' v) k = if k' = k then some v else aget? t k := by
  by_cases h : k' = k
  · subst h; simp [dictSet, aget?_aset_self]
  · simp [dictSet, h, aget?_aset_ne t v h]

theorem setMany_get (ps : List (Str × PyVal)) (t : Txn) (k : Str) :
    aget? (setMany t ps) k =
      match aget? ps.reverse k with
      | some v => some v
      | Option.none => aget? t k := by
  induction ps generalizing t with
  | nil => simp [setMany, aget?]
  | cons p rest ih =>
    have h1 : setMany t (p :: rest) = setMany (dictSet t p.1 p.2) rest := rfl
    rw [h1, ih]
    have h2 : (p :: rest).reverse = rest.reverse ++ [p] := by simp
    rw [h2, aget?_append]
    cases hr : aget? rest.reverse k
    · simp only []
      rw [aget?_dictSet]
      have : aget? [p] k = if p.1 = k then some p.2 else Option.none := by
        simp [aget?]
      rw [this]
      by_cases h : p.1 = k <;> simp [h, aget?]
    · simp

/-! Projection lemmas for the state-mutating operations. -/

theorem index_candidate_candidates (st : CandState) (a : Str) (c : Txn) :
    (index_candidate st a c).candidates = st.candidates := by
  unfold index_candidate
  dsimp only
  split_ifs <;> rfl

theorem index_candidate_cache (st : CandState) (a : Str) (c : Txn) :
    (index_candidate st a c).cache = st.cache := by
  unfold index_candidate
  dsimp only
  split_ifs <;> rfl

theorem index_candidate_name_index (st : CandState) (a : Str) (c : Txn) :
    (index_candidate st a c).name_index =
      (if normalize_name (build_full_name (stripWs (dictGetStr c kNameFirst))
          (stripWs (dictGetStr c kNameLast)) (stripWs (dictGetStr c kNameMiddle))) ≠ [] then
        idxApp st.name_index (normalize_name (build_full_name (stripWs (dictGetStr c kNameFirst))
          (stripWs (dictGetStr c kNameLast)) (stripWs (dictGetStr c kNameMiddle)))) a
      else st.name_index) := by
  unfold index_candidate
  dsimp only
  split_ifs <;> rfl

theorem index_candidate_lastname_index (st : CandState) (a : Str) (c : Txn) :
    (index_candidate st a c).lastname_index =
      (if normalize_name (stripWs (dictGetStr c kNameLast)) ≠ [] then
        idxApp st.lastname_index (normalize_name (stripWs (dictGetStr c kNameLast))) a
      else st.lastname_index) := by
  unfold index_candidate
  dsimp only
  split_ifs <;> rfl

theorem index_candidate_component_index (st : CandState) (a : Str) (c : Txn) :
    (index_candidate st a c).component_index =
      (if normalize_name (stripWs (dictGetStr c kNameFirst)) ≠ [] ∧
          normalize_name (stripWs (dictGetStr c kNameLast)) ≠ [] then
        idxApp st.component_index (normalize_name (stripWs (dictGetStr c kNameFirst)),
          normalize_name (stripWs (dictGetStr c kNameLast))) a
      else st.component_index) := by
  unfold index_candidate
  dsimp only
  split_ifs <;> rfl

theorem index_committee_name_index (st : CommState) (a : Str) (n : Str) :
    (index_committee st a n).name_index =
      (if normalize_committee_name n true ≠ [] then
        idxApp st.name_index (normalize_committee_name n true) a
      else st.name_index) := by
  unfold index_committee
  dsimp only
  split_ifs <;> rfl

theorem index_committee_committees (st : CommState) (a : Str) (n : Str) :
    (index_committee st a n).committees = st.committees := by
  unfold index_committee
  dsimp only
  split_ifs <;> rfl

/-! Claim C4 (corrected). -/

/-- C4 counterexample: loading the same candidate row (account 12345)
twice leaves the full-name index entry with the account listed twice, so
an index variant does gain a duplicate entry under the same normalized
key, contrary to the claim. -/
theorem C4_counterexample :
    (idxGet exCand2.name_index (normalize_name (("DeSantis, Ron").toList))).count
        (("12345").toList) = 2 ∧
    aget? exCand2.candidates (("12345").toList) = some exRow := by decide

/-- C4 (amended): adding an entity twice under the same account id
overwrites the stored fields in the primary store, but every index
variant appends the account id again under its normalized key whenever
that key is non-empty: the candidate full-name, last-name and
(first, last) component indexes and the committee name index each gain a
second entry for the account, the entry count under the key growing by
two across the two adds rather than staying duplicate-free. -/
theorem C4_add_twice_overwrites_store_and_duplicates_index :
    (∀ (st : CandState) (row : Txn), stripWs (dictGetStr row kAcctNum) ≠ [] →
      aget? ((candAddRow (candAddRow st row).1 row).1).candidates
          (stripWs (dictGetStr row kAcctNum)) = some row ∧
      (normalize_name (build_full_name (stripWs (dictGetStr row kNameFirst))
          (stripWs (dictGetStr row kNameLast)) (stripWs (dictGetStr row kNameMiddle))) ≠ [] →
        (idxGet ((candAddRow (candAddRow st row).1 row).1).name_index
            (normalize_name (build_full_name (stripWs (dictGetStr row kNameFirst))
              (stripWs (dictGetStr row kNameLast)) (stripWs (dictGetStr row kNameMiddle))))).count
            (stripWs (dictGetStr row kAcctNum)) =
          (idxGet st.name_index
            (normalize_name (build_full_name (stripWs (dictGetStr row kNameFirst))
              (stripWs (dictGetStr row kNameLast)) (stripWs (dictGetStr row kNameMiddle))))).count
            (stripWs (dictGetStr row kAcctNum)) + 2) ∧
      (normalize_name (stripWs (dictGetStr row kNameLast)) ≠ [] →
        (idxGet ((candAddRow (candAddRow st row).1 row).1).lastname_index
            (normalize_name (stripWs (dictGetStr row kNameLast)))).count
            (stripWs (dictGetStr row kAcctNum)) =
          (idxGet st.lastname_index
            (normalize_name (stripWs (dictGetStr row kNameLast)))).count
            (stripWs (dictGetStr row kAcctNum)) + 2) ∧
      (normalize_name (stripWs (dictGetStr row kNameFirst)) ≠ [] ∧
          normalize_name (stripWs (dictGetStr row kNameLast)) ≠ [] →
        (idxGet ((candAddRow (candAddRow st row).1 row).1).component_index
            (normalize_name (stripWs (dictGetStr row kNameFirst)),
              normalize_name (stripWs (dictGetStr row kNameLast)))).count
            (stripWs (dictGetStr row kAcctNum)) =
          (idxGet st.component_index
            (normalize_name (stripWs (dictGetStr row kNameFirst)),
              normalize_name (stripWs (dictGetStr row kNameLast)))).count
            (stripWs (dictGetStr row kAcctNum)) + 2)) ∧
    (∀ (st : CommState) (row : Txn), stripWs (dictGetStr row kAcctNum) ≠ [] →
      stripWs (dictGetStr row kCommitteeNameSp) ≠ [] →
      normalize_committee_name (stripWs (dictGetStr row kCommitteeNameSp)) true ≠ [] →
      aget? ((commAddRow (commAddRow st row).1 row).1).committees
          (stripWs (dictGetStr row kAcctNum)) = some row ∧
      (idxGet ((commAddRow (commAddRow st row).1 row).1).name_index
          (normalize_committee_name (stripWs (dictGetStr row kCommitteeNameSp)) true)).count
          (stripWs (dictGetStr row kAcctNum)) =
        (idxGet st.name_index
          (normalize_committee_name (stripWs (dictGetStr row kCommitteeNameSp)) true)).count
          (stripWs (dictGetStr row kAcctNum)) + 2) := by
  constructor
  · intro st row hacct
    set acct := stripWs (dictGetStr row kAcctNum) with hacctdef
    have hstep : ∀ s : CandState, (candAddRow s row).1 =
        index_candidate { s with candidates := aset s.candidates acct row } acct row := by
      intro s
      unfold candAddRow
      dsimp only
      rw [if_neg hacct]
    refine ⟨?_, ?_, ?_, ?_⟩
    · rw [hstep, hstep, index_candidate_candidates]
      dsimp only
      rw [index_candidate_candidates]
      dsimp only
      exact aget?_aset_self _ _ _
    · intro hkey
      rw [hstep, hstep, index_candidate_name_index, if_pos hkey]
      rw [index_candidate_name_index, if_pos hkey]
      dsimp only
      rw [idxGet_idxApp_self, idxGet_idxApp_self]
      simp [List.count_append]
    · intro hkey
      rw [hstep, hstep, index_candidate_lastname_index, if_pos hkey]
      rw [index_candidate_lastname_index, if_pos hkey]
      dsimp only
      rw [idxGet_idxApp_self, idxGet_idxApp_self]
      simp [List.count_append]
    · intro hkey
      rw [hstep, hstep, index_candidate_component_index, if_pos hkey]
      rw [index_candidate_component_index, if_pos hkey]
      dsimp only
      rw [idxGet_idxApp_self, idxGet_idxApp_self]
      simp [List.count_append]
  · intro st row hacct hname hkey
    set acct := stripWs (dictGetStr row kAcctNum) with hacctdef
    set nm := stripWs (dictGetStr row kCommitteeNameSp) with hnmdef
    have hstep : ∀ s : CommState, (commAddRow s row).1 =
        index_committee { s with committees := aset s.committees acct row } acct nm := by
      intro s
      unfold commAddRow
      dsimp only
      rw [if_neg hacct, if_neg hname]
    constructor
    · rw [hstep, hstep, index_committee_committees]
      dsimp only
      rw [index_committee_committees]
      dsimp only
      exact aget?_aset_self _ _ _
    · rw [hstep, hstep, index_committee_name_index, if_pos hkey]
      rw [index_committee_name_index, if_pos hkey]
      dsimp only
      rw [idxGet_idxApp_self, idxGet_idxApp_self]
      simp [List.count_append]

/-- C4 witness: the amended statement applied to the concrete DeSantis
row added twice to the empty state — the store holds the row once while
the full-name, last-name and component index entries each list the
account twice. -/
theorem C4_witness :
    aget? ((candAddRow (candAddRow emptyCand exRow).1 exRow).1).candidates
        (("12345").toList) = some exRow ∧
    (idxGet ((candAddRow (candAddRow emptyCand exRow).1 exRow).1).name_index
        (("DeSantis, Ron").toList)).count (("12345").toList) =
      (idxGet emptyCand.name_index (("DeSantis, Ron").toList)).count (("12345").toList) + 2 ∧
    (idxGet ((candAddRow (candAddRow emptyCand exRow).1 exRow).1).lastname_index
        (("DeSantis").toList)).count (("12345").toList) =
      (idxGet emptyCand.lastname_index (("DeSantis").toList)).count (("12345").toList) + 2 ∧
    (idxGet ((candAddRow (candAddRow emptyCand exRow).1 exRow).1).component_index
        ((("Ron").toList), (("DeSantis").toList))).count (("12345").toList) =
      (idxGet emptyCand.component_index ((("Ron").toList), (("DeSantis").toList))).count
        (("12345").toList) + 2 := by
  have h := (C4_add_twice_overwrites_store_and_duplicates_index).1 emptyCand exRow (by decide)
  have he1 : stripWs (dictGetStr exRow kAcctNum) = (("12345").toList) := by decide
  have he2 : normalize_name (build_full_name (stripWs (dictGetStr exRow kNameFirst))
      (stripWs (dictGetStr exRow kNameLast)) (stripWs (dictGetStr exRow kNameMiddle))) =
      (("DeSantis, Ron").toList) := by decide
  have he3 : normalize_name (stripWs (dictGetStr exRow kNameLast)) = (("DeSantis").toList) := by
    decide
  have he4 : normalize_name (stripWs (dictGetStr exRow kNameFirst)) = (("Ron").toList) := by
    decide
  rw [he1, he2, he3, he4] at h
  exact ⟨h.1, h.2.1 (by decide), h.2.2.1 (by decide), h.2.2.2 (by decide)⟩

/-! Claim C5 (corrected). -/

/-- C5 counterexample: a transport failure of the online search produces
the same None result as a perfectly well-formed response with no result
tables, so the caller of the fallback cannot distinguish a subsystem
failure from a no-match — nothing is raised. -/
theorem C5_counterexample :
    search_online (Except.error ()) (fun _ => some exOm.entity) (("Foo").toList) = Option.none ∧
    search_online (Except.ok []) (fun _ => some exOm.entity) (("Foo").toList) = Option.none := by
  decide

/-- C5 (amended): transport and parse failures inside the online fallback
are swallowed by its blanket except and converted into the None no-match
result (likewise a failing detail fetch), rather than propagating as a
raised typed error. -/
theorem C5_fallback_swallows_errors :
    (∀ (e : Unit) (details : Str → Option Txn) (name : Str),
      search_online (Except.error e) details name = Option.none) ∧
    (∀ (tables : List (List (Option (Str × Str)))) (name : Str),
      search_online (Except.ok tables) (fun _ => Option.none) name = Option.none) := by
  constructor
  · intro e details name
    rfl
  · intro tables name
    unfold search_online
    dsimp only
    by_cases h1 : tables.length < 3
    · rw [if_pos h1]
    · rw [if_neg h1]
      by_cases h2 : (tables.getD 2 []).length < 2
      · rw [if_pos h2]
      · rw [if_neg h2]
        cases (scanRows (normalize_committee_name name true)
            (get_search_variants (List.take 50 name))
            (List.drop 1 (tables.getD 2 [])) scanInit).best with
        | none => rfl
        | some a =>
          dsimp only
          by_cases h3 : a = [] <;> simp [h3]

/-! Claim C8 (corrected). -/

/-- C8 counterexample: the candidate loader accepts and counts a record
that has an account number but entirely empty name fields, contrary to
the claim that records lacking a non-empty name are skipped. -/
theorem C8_counterexample :
    (load_from_file_cand emptyCand (some []) [exRowAcctOnly]).toOption.map (fun p => p.2) =
      some 1 ∧
    dictGetStr exRowAcctOnly kNameFirst = [] ∧
    dictGetStr exRowAcctOnly kNameLast = [] ∧
    dictGetStr exRowAcctOnly kNameMiddle = [] := by decide

/-- C8 (amended): the committee loader accepts exactly the records with a
non-empty account number and a non-empty committee name; the candidate
loader checks only the account number and accepts records with empty
names.  Both return the count of accepted records, and a source without
headers raises the format error. -/
theorem C8_load_accepts_and_counts :
    (∀ (st : CandState) (hdr : List Str) (rows : List Txn),
      (load_from_file_cand st (some hdr) rows).toOption.map (fun p => p.2) =
        some ((rows.filter (fun r => stripWs (dictGetStr r kAcctNum) ≠ [])).length)) ∧
    (∀ (st : CommState) (hdr : List Str) (rows : List Txn),
      (load_from_file_comm st (some hdr) rows).toOption.map (fun p => p.2) =
        some ((rows.filter (fun r => stripWs (dictGetStr r kAcctNum) ≠ [] ∧
          stripWs (dictGetStr r kCommitteeNameSp) ≠ [])).length)) ∧
    (∀ (st : CandState) (rows : List Txn),
      load_from_file_cand st Option.none rows =
        Except.error (("CSV file has no headers").toList)) ∧
    (∀ (st : CommState) (rows : List Txn),
      load_from_file_comm st Option.none rows =
        Except.error (("CSV file has no headers").toList)) := by
  have hcand : ∀ (rows : List Txn) (st : CandState) (n : ℕ),
      (rows.foldl (fun (p : CandState × ℕ) row =>
        let q := candAddRow p.1 row
        (q.1, if q.2 then p.2 + 1 else p.2)) (st, n)).2 =
      n + (rows.filter (fun r => stripWs (dictGetStr r kAcctNum) ≠ [])).length := by
    intro rows
    induction rows with
    | nil => intro st n; simp
    | cons r rest ih =>
      intro st n
      by_cases h : stripWs (dictGetStr r kAcctNum) = []
      · have hsnd : (candAddRow st r).2 = false := by
          unfold candAddRow
          dsimp only
          rw [if_pos h]
        simp only [List.foldl_cons]
        simp [hsnd, ih, h]
      · have hsnd : (candAddRow st r).2 = true := by
          unfold candAddRow
          dsimp only
          rw [if_neg h]
        simp only [List.foldl_cons]
        simp [hsnd, ih, h]
        omega
  have hcomm : ∀ (rows : List Txn) (st : CommState) (n : ℕ),
      (rows.foldl (fun (p : CommState × ℕ) row =>
        let q := commAddRow p.1 row
        (q.1, if q.2 then p.2 + 1 else p.2)) (st, n)).2 =
      n + (rows.filter (fun r => stripWs (dictGetStr r kAcctNum) ≠ [] ∧
        stripWs (dictGetStr r kCommitteeNameSp) ≠ [])).length := by
    intro rows
    induction rows with
    | nil => intro st n; simp
    | cons r rest ih =>
      intro st n
      by_cases h : stripWs (dictGetStr r kAcctNum) = []
      · have hsnd : (commAddRow st r).2 = false := by
          unfold commAddRow
          dsimp only
          rw [if_pos h]
        simp only [List.foldl_cons]
        simp [hsnd, ih, h]
      · by_cases h2 : stripWs (dictGetStr r kCommitteeNameSp) = []
        · have hsnd : (commAddRow st r).2 = false := by
            unfold commAddRow
            dsimp only
            rw [if_neg h, if_pos h2]
          simp only [List.foldl_cons]
          simp [hsnd, ih, h, h2]
        · have hsnd : (commAddRow st r).2 = true := by
            unfold commAddRow
            dsimp only
            rw [if_neg h, if_neg h2]
          simp only [List.foldl_cons]
          simp [hsnd, ih, h, h2]
          omega
  refine ⟨?_, ?_, ?_, ?_⟩
  · intro st hdr rows
    unfold load_from_file_cand
    dsimp only
    rw [hcand rows st 0]
    simp
    exact ⟨_, rfl⟩
  · intro st hdr rows
    unfold load_from_file_comm
    dsimp only
    rw [hcomm rows st 0]
    simp
    exact ⟨_, rfl⟩
  · intro st rows; rfl
  · intro st rows; rfl

/-! Cache-shape lemmas for find_by_name. -/

theorem find_comm_of_cache_hit (online : Str → Option MatchResult) (st : CommState) (n : Str)
    (f : Bool) (r : List MatchResult) (hn : n ≠ [])
    (hns : normalize_committee_name n true ≠ [])
    (hc : aget? st.cache (normalize_committee_name n true) = some r) :
    find_by_name_comm online st n true f = (st, r) := by
  unfold find_by_name_comm
  simp only [if_neg hn, if_neg hns, if_true, hc]

theorem find_comm_cache_after (online : Str → Option MatchResult) (st : CommState) (n : Str)
    (f : Bool) (hn : n ≠ []) (hns : normalize_committee_name n true ≠ []) :
    aget? ((find_by_name_comm online st n true f).1).cache (normalize_committee_name n true) =
      some ((find_by_name_comm online st n true f).2) := by
  unfold find_by_name_comm
  simp only [if_neg hn, if_neg hns, if_true]
  cases hc : aget? st.cache (normalize_committee_name n true) with
  | some r => simp [hc]
  | none =>
    simp only [hc]
    try dsimp only
    rw [aget?_aset_self]

theorem find_cand_shape (st : CandState) (n : Str) (p : Option Str) :
    find_by_name_cand st n p true = (st, (find_by_name_cand st n p true).2) ∨
    find_by_name_cand st n p true =
      ({ st with cache := (aset st.cache ((normalize_name n, p))
          ((find_by_name_cand st n p true).2)) },
        (find_by_name_cand st n p true).2) := by
  unfold find_by_name_cand
  by_cases hn : n = []
  · simp only [if_pos hn]
    left; trivial
  · simp only [if_neg hn]
    by_cases hns : normalize_name n = []
    · simp only [if_pos hns]
      left; trivial
    · simp only [if_neg hns, if_true]
      cases hc : aget? st.cache (normalize_name n, p) with
      | some r =>
        simp only [hc]
        left; trivial
      | none =>
        simp only [hc]
        right; trivial

theorem find_cand_congr (st : CandState) (cc : List ((Str × Option Str) × List MatchResult))
    (n : Str) (p : Option Str)
    (hagree : aget? cc (normalize_name n, p) = aget? st.cache (normalize_name n, p)) :
    (find_by_name_cand { st with cache := cc } n p true).2 =
      (find_by_name_cand st n p true).2 := by
  unfold find_by_name_cand
  by_cases hn : n = []
  · simp only [if_pos hn]
  · simp only [if_neg hn]
    by_cases hns : normalize_name n = []
    · simp only [if_pos hns]
    · simp only [if_neg hns, if_true]
      try dsimp only
      rw [hagree]
      cases hc : aget? st.cache (normalize_name n, p) with
      | some r => simp only [hc]
      | none =>
        simp only [hc]
        rfl

/-! Claim C6 (corrected). -/

/-- C6 counterexample: on a fresh committee lookup whose online oracle can
resolve the name, a find with the fallback flag off caches the empty
result under the normalized name; a second find with the fallback flag on
reads that same cache entry and returns empty, although a fresh call with
the fallback on returns the online match — so calls differing only in the
fallback-search flag do read each other's cached results. -/
theorem C6_counterexample :
    (find_by_name_comm exOnline emptyComm (("Foo").toList) true false).2 = [] ∧
    (find_by_name_comm exOnline
        ((find_by_name_comm exOnline emptyComm (("Foo").toList) true false).1)
        (("Foo").toList) true true).2 = [] ∧
    (find_by_name_comm exOnline emptyComm (("Foo").toList) true true).2 = [exOm] := by decide

/-- C6 (amended): the candidate lookup cache is keyed by (normalized
name, party), so cached calls that differ in party never read each
other's entries; the committee lookup cache is keyed by the normalized
name alone, so a second cached committee call returns the first call's
result regardless of the fallback-search flags of either call. -/
theorem C6_cache_keying :
    (∀ (online : Str → Option MatchResult) (st : CommState) (n : Str) (f1 f2 : Bool),
      (find_by_name_comm online ((find_by_name_comm online st n true f1).1) n true f2).2 =
        (find_by_name_comm online st n true f1).2) ∧
    (∀ (st : CandState) (n : Str) (p1 p2 : Option Str), p1 ≠ p2 →
      (find_by_name_cand ((find_by_name_cand st n p1 true).1) n p2 true).2 =
        (find_by_name_cand st n p2 true).2) := by
  constructor
  · intro online st n f1 f2
    by_cases hn : n = []
    · simp [find_by_name_comm, hn]
    · by_cases hns : normalize_committee_name n true = []
      · simp [find_by_name_comm, hn, hns]
      · have hhit := find_comm_cache_after online st n f1 hn hns
        rw [find_comm_of_cache_hit online _ n f2 _ hn hns hhit]
  · intro st n p1 p2 hp
    rcases find_cand_shape st n p1 with h | h
    · rw [h]
    · rw [h]
      try dsimp only
      apply find_cand_congr
      apply aget?_aset_ne
      intro he
      exact hp (congrArg Prod.snd he)

/-! Scan lemmas for the online-fallback scoring (claim C3). -/

theorem startsWith_containsSub {v s : Str} (h : startsWithB v s = true) :
    containsSub s v = true := by
  unfold containsSub
  simp [h]

theorem scoreOfStart_nonneg (v nf : Str) : 0 ≤ scoreOfStart v nf := by
  unfold scoreOfStart
  split_ifs
  · exact le_refl 0
  · rw [Rat.mkRat_eq_div]
    positivity

theorem strat2_no_op (vs : List Str) (nf f a : Str) (st : ScanSt)
    (h : ∀ v ∈ vs, startsWithB v nf = false) : onlineStrat2 vs nf f a st = st := by
  induction vs generalizing st with
  | nil => rfl
  | cons v rest ih =>
    unfold onlineStrat2
    rw [List.foldl_cons]
    have hv := h v (by simp)
    simp only [hv, Bool.false_eq_true, if_false]
    exact ih st (fun v hv => h v (by simp [hv]))

theorem strat3_no_op (vs : List Str) (nf f a : Str) (st : ScanSt)
    (h : ∀ v ∈ vs, containsSub nf v = false) : onlineStrat3 vs nf f a st = st := by
  induction vs generalizing st with
  | nil => rfl
  | cons v rest ih =>
    unfold onlineStrat3
    rw [List.foldl_cons]
    have hv := h v (by simp)
    simp only [hv, Bool.false_eq_true, if_false]
    exact ih st (fun v hv => h v (by simp [hv]))

theorem scanRows_nil (ns : Str) (vs : List Str) (st : ScanSt) :
    scanRows ns vs [] st = st := rfl

theorem scanRows_cons_none (ns : Str) (vs : List Str) (rest : List (Option (Str × Str)))
    (st : ScanSt) : scanRows ns vs (Option.none :: rest) st = scanRows ns vs rest st := rfl

theorem scanRows_cons_some (ns : Str) (vs : List Str) (fname acct : Str)
    (rest : List (Option (Str × Str))) (st : ScanSt) :
    scanRows ns vs (some (fname, acct) :: rest) st =
      (if normalize_committee_name fname true = ns then ⟨some acct, some fname, 1⟩
       else
         scanRows ns vs rest
           (if (onlineStrat2 vs (normalize_committee_name fname true) fname acct st).score = 0 then
             onlineStrat3 vs (normalize_committee_name fname true) fname acct
               (onlineStrat2 vs (normalize_committee_name fname true) fname acct st)
           else onlineStrat2 vs (normalize_committee_name fname true) fname acct st)) := rfl

theorem scan_inert (ns : Str) (vs : List Str) (pre l : List (Option (Str × Str)))
    (st : ScanSt) (h : ∀ r ∈ pre, rowInert ns vs r = true) :
    scanRows ns vs (pre ++ l) st = scanRows ns vs l st := by
  induction pre generalizing st with
  | nil => rfl
  | cons r rest ih =>
    cases r with
    | none =>
      show scanRows ns vs (Option.none :: (rest ++ l)) st = _
      rw [scanRows_cons_none]
      exact ih st (fun r hr => h r (by simp [hr]))
    | some rr =>
      obtain ⟨fname, acct⟩ := rr
      have hi := h (some (fname, acct)) (by simp)
      unfold rowInert at hi
      simp only [Bool.and_eq_true, ne_eq, decide_not, Bool.not_eq_true', decide_eq_false_iff_not,
        List.all_eq_true] at hi
      obtain ⟨hne, hnc⟩ := hi
      have hnc' : ∀ v ∈ vs, containsSub (normalize_committee_name fname true) v = false := by
        intro v hv
        have := hnc v hv
        simpa using this
      have hns' : ∀ v ∈ vs, startsWithB v (normalize_committee_name fname true) = false := by
        intro v hv
        by_contra hcon
        rw [Bool.not_eq_false] at hcon
        have := startsWith_containsSub hcon
        rw [hnc' v hv] at this
        exact Bool.false_ne_true this
      show scanRows ns vs (some (fname, acct) :: (rest ++ l)) st = _
      rw [scanRows_cons_some, if_neg hne, strat2_no_op _ _ _ _ _ hns']
      by_cases hz : st.score = 0
      · rw [if_pos hz, strat3_no_op _ _ _ _ _ hnc']
        exact ih st (fun r hr => h r (by simp [hr]))
      · rw [if_neg hz]
        exact ih st (fun r hr => h r (by simp [hr]))

theorem startMaxFrom_nonneg (vs : List Str) (nf : Str) :
    ∀ m : ℚ, 0 ≤ m → 0 ≤ startMaxFrom vs nf m := by
  induction vs with
  | nil => intro m h; exact h
  | cons v rest ih =>
    intro m h
    unfold startMaxFrom
    rw [List.foldl_cons]
    by_cases hs : startsWithB v nf = true
    · simp only [hs, if_true]
      exact ih _ (le_max_of_le_left h)
    · simp only [hs, if_false]
      exact ih _ h

theorem startMaxFrom_shift (vs : List Str) (nf : Str) :
    ∀ m : ℚ, 0 ≤ m → startMaxFrom vs nf m = max m (startMaxFrom vs nf 0) := by
  induction vs with
  | nil =>
    intro m h
    show m = max m 0
    rw [max_eq_left h]
  | cons v rest ih =>
    intro m h
    show startMaxFrom (v :: rest) nf m = _
    unfold startMaxFrom
    rw [List.foldl_cons, List.foldl_cons]
    by_cases hs : startsWithB v nf = true
    · simp only [hs, if_true]
      have hsc : 0 ≤ scoreOfStart v nf := scoreOfStart_nonneg v nf
      have h1 : startMaxFrom rest nf (max m (scoreOfStart v nf)) =
          max (max m (scoreOfStart v nf)) (startMaxFrom rest nf 0) :=
        ih _ (le_max_of_le_left h)
      have h2 : startMaxFrom rest nf (max 0 (scoreOfStart v nf)) =
          max (max 0 (scoreOfStart v nf)) (startMaxFrom rest nf 0) :=
        ih _ (le_max_of_le_left (le_refl 0))
      show startMaxFrom rest nf (max m (scoreOfStart v nf)) =
        max m (startMaxFrom rest nf (max 0 (scoreOfStart v nf)))
      rw [h1, h2, max_eq_right hsc, max_assoc]
    · simp only [hs, if_false]
      exact ih m h

theorem strat2_spec (vs : List Str) (nf f a : Str) :
    ∀ st : ScanSt, 0 ≤ st.score →
    ((onlineStrat2 vs nf f a st).score = max st.score (startMaxFrom vs nf 0)) ∧
    (onlineStrat2 vs nf f a st = st ∨
      ((onlineStrat2 vs nf f a st).best = some a ∧
       (onlineStrat2 vs nf f a st).bestName = some f ∧
       st.score < startMaxFrom vs nf 0)) := by
  induction vs with
  | nil =>
    intro st h
    constructor
    · show st.score = max st.score (startMaxFrom [] nf 0)
      show st.score = max st.score 0
      rw [max_eq_left h]
    · left; rfl
  | cons v rest ih =>
    intro st h
    have hstep : onlineStrat2 (v :: rest) nf f a st =
        onlineStrat2 rest nf f a
          (if startsWithB v nf then
            (if st.score < scoreOfStart v nf then ⟨some a, some f, scoreOfStart v nf⟩ else st)
          else st) := rfl
    have hsmf : startMaxFrom (v :: rest) nf 0 =
        startMaxFrom rest nf (if startsWithB v nf then max 0 (scoreOfStart v nf) else 0) := rfl
    have hsc : 0 ≤ scoreOfStart v nf := scoreOfStart_nonneg v nf
    by_cases hs : startsWithB v nf = true
    · rw [hstep, hsmf]
      simp only [hs, if_true]
      rw [max_eq_right hsc, startMaxFrom_shift rest nf (scoreOfStart v nf) hsc]
      by_cases hlt : st.score < scoreOfStart v nf
      · rw [if_pos hlt]
        obtain ⟨ihs, ihb⟩ := ih ⟨some a, some f, scoreOfStart v nf⟩ hsc
        constructor
        · rw [ihs]
          show max (scoreOfStart v nf) _ = _
          rw [max_eq_right (le_of_lt (lt_of_lt_of_le hlt (le_max_left _ _)))]
        · right
          rcases ihb with he | ⟨hb, hbn, _⟩
          · rw [he]
            exact ⟨rfl, rfl, lt_of_lt_of_le hlt (le_max_left _ _)⟩
          · exact ⟨hb, hbn, lt_of_lt_of_le hlt (le_max_left _ _)⟩
      · rw [if_neg hlt]
        push_neg at hlt
        obtain ⟨ihs, ihb⟩ := ih st h
        constructor
        · rw [ihs]
          rw [max_comm (scoreOfStart v nf) (startMaxFrom rest nf 0), ← max_assoc,
            max_eq_left (le_trans hlt (le_max_left _ _))]
        · rcases ihb with he | ⟨hb, hbn, hlt2⟩
          · left; exact he
          · right
            refine ⟨hb, hbn, lt_of_lt_of_le hlt2 (le_max_of_le_right (le_refl _))⟩
    · rw [hstep, hsmf]
      have hsf : startsWithB v nf = false := by rwa [Bool.not_eq_true] at hs
      simp only [hsf, Bool.false_eq_true, if_false]
      exact ih st h

theorem rowStartScore_nonneg (vs : List Str) (r : Option (Str × Str)) :
    0 ≤ rowStartScore vs r := by
  cases r with
  | none => exact le_refl 0
  | some rr =>
    obtain ⟨fn, ac⟩ := rr
    exact startMaxFrom_nonneg vs _ 0 (le_refl 0)

theorem maxStartScore_shift (vs : List Str) :
    ∀ (rows : List (Option (Str × Str))) (m : ℚ), 0 ≤ m →
      rows.foldl (fun m r => max m (rowStartScore vs r)) m = max m (maxStartScore vs rows) := by
  intro rows
  induction rows with
  | nil =>
    intro m h
    show m = max m 0
    rw [max_eq_left h]
  | cons r rest ih =>
    intro m h
    rw [List.foldl_cons]
    have hr : 0 ≤ rowStartScore vs r := rowStartScore_nonneg vs r
    have h1 := ih (max m (rowStartScore vs r)) (le_max_of_le_left h)
    have h2 := ih (max 0 (rowStartScore vs r)) (le_max_of_le_left (le_refl 0))
    have hms : maxStartScore vs (r :: rest) =
        rest.foldl (fun m r => max m (rowStartScore vs r)) (max 0 (rowStartScore vs r)) := rfl
    rw [h1, hms, h2, max_eq_right hr, max_assoc]

theorem maxStartScore_nonneg (vs : List Str) (rows : List (Option (Str × Str))) :
    0 ≤ maxStartScore vs rows := by
  have h := maxStartScore_shift vs rows 0 (le_refl 0)
  unfold maxStartScore
  rw [h]
  exact le_max_left 0 _

theorem maxStartScore_cons (vs : List Str) (r : Option (Str × Str))
    (rows : List (Option (Str × Str))) :
    maxStartScore vs (r :: rows) = max (rowStartScore vs r) (maxStartScore vs rows) := by
  have hms : maxStartScore vs (r :: rows) =
      rows.foldl (fun m r => max m (rowStartScore vs r)) (max 0 (rowStartScore vs r)) := rfl
  rw [hms, maxStartScore_shift vs rows _ (le_max_of_le_left (le_refl 0)),
    max_eq_right (rowStartScore_nonneg vs r)]

theorem scan_run (ns : Str) (vs : List Str) :
    ∀ (rows : List (Option (Str × Str))) (st : ScanSt),
    (∀ r ∈ rows, rowExact ns r = false) → 0 < st.score →
    (scanRows ns vs rows st).score = max st.score (maxStartScore vs rows) ∧
    ((scanRows ns vs rows st).best = st.best ∨
      ∃ fn ac, some (fn, ac) ∈ rows ∧ (scanRows ns vs rows st).best = some ac ∧
        0 < rowStartScore vs (some (fn, ac))) := by
  intro rows
  induction rows with
  | nil =>
    intro st hex hpos
    constructor
    · show st.score = max st.score (maxStartScore vs [])
      show st.score = max st.score 0
      rw [max_eq_left (le_of_lt hpos)]
    · left; rfl
  | cons r rest ih =>
    intro st hex hpos
    cases r with
    | none =>
      rw [scanRows_cons_none]
      obtain ⟨ihs, ihb⟩ := ih st (fun r hr => hex r (by simp [hr])) hpos
      constructor
      · rw [ihs, maxStartScore_cons]
        show _ = max st.score (max 0 _)
        rw [max_eq_right (maxStartScore_nonneg vs rest)]
      · rcases ihb with hb | ⟨fn, ac, hm, hb, hs⟩
        · left; exact hb
        · right; exact ⟨fn, ac, by simp [hm], hb, hs⟩
    | some rr =>
      obtain ⟨fn0, ac0⟩ := rr
      have hex0 := hex (some (fn0, ac0)) (by simp)
      have hne : ¬(normalize_committee_name fn0 true = ns) := by
        simpa [rowExact] using hex0
      rw [scanRows_cons_some, if_neg hne]
      obtain ⟨h2s, h2b⟩ := strat2_spec vs (normalize_committee_name fn0 true) fn0 ac0 st
        (le_of_lt hpos)
      set st1 := onlineStrat2 vs (normalize_committee_name fn0 true) fn0 ac0 st with hst1
      have hst1pos : 0 < st1.score := by
        rw [h2s]
        exact lt_max_of_lt_left hpos
      have hnz : ¬(st1.score = 0) := ne_of_gt hst1pos
      rw [if_neg hnz]
      obtain ⟨ihs, ihb⟩ := ih st1 (fun r hr => hex r (by simp [hr])) hst1pos
      have hrss : rowStartScore vs (some (fn0, ac0)) =
          startMaxFrom vs (normalize_committee_name fn0 true) 0 := rfl
      constructor
      · rw [ihs, h2s, maxStartScore_cons, hrss, max_assoc]
      · rcases ihb with hb | ⟨fn, ac, hm, hb, hs⟩
        · rcases h2b with he | ⟨hbest, _, hlt⟩
          · left
            rw [hb, he]
          · right
            refine ⟨fn0, ac0, by simp, ?_, ?_⟩
            · rw [hb, hbest]
            · rw [hrss]
              exact lt_trans hpos hlt
        · right; exact ⟨fn, ac, by simp [hm], hb, hs⟩

/-! Claim C3 (corrected). -/

/-- C3 counterexample: with single variant "abc", the first row "xabc"
matches only by containment (it does not start with the variant and is
not exact), while the second row "abcdefgh" starts with the variant; the
scan nevertheless keeps the first row (containment score 3/4 beats the
start-of-string score 3/8 and strategy 3 had already run because the
running best was still zero), so a containment-only match from another
row is chosen even though some row starts with a variant. -/
theorem C3_counterexample :
    (scanRows (("abc").toList) [("abc").toList]
        [some ((("xabc").toList), (("1").toList)), some ((("abcdefgh").toList), (("2").toList))]
        scanInit).best = some (("1").toList) ∧
    startsWithB (("abc").toList) (normalize_committee_name (("abcdefgh").toList) true) = true ∧
    startsWithB (("abc").toList) (normalize_committee_name (("xabc").toList) true) = false ∧
    (normalize_committee_name (("xabc").toList) true ≠ (("abc").toList)) ∧
    containsSub (normalize_committee_name (("xabc").toList) true) (("abc").toList) = true := by
  decide

/-- C3 (amended): an exact normalized match short-circuits the scan with
confidence 1.0 regardless of earlier state; a start-of-string variant
match scores len(variant)/len(result), and the scan keeps the maximum of
those scores; but a containment match is consulted for a row only while
the running best score is still zero, not merely when no start-of-string
match exists.  Consequently the no-containment-interference guarantee
holds in this form: when every row before the first start-of-string
matching row is inert (no exact, start or containment match), the final
score is exactly the maximum start-of-string score over the remaining
rows, and the chosen row is itself a start-of-string matching row, never
a containment-only row. -/
theorem C3_scan_precedence :
    (∀ (ns : Str) (vs : List Str) (pre : List (Option (Str × Str))) (fname acct : Str)
        (rest : List (Option (Str × Str))) (st : ScanSt),
      (∀ r ∈ pre, rowExact ns r = false) →
      rowExact ns (some (fname, acct)) = true →
      scanRows ns vs (pre ++ some (fname, acct) :: rest) st =
        ⟨some acct, some fname, 1⟩) ∧
    (∀ (ns : Str) (vs : List Str) (pre : List (Option (Str × Str))) (fname acct : Str)
        (rest : List (Option (Str × Str))),
      (∀ r ∈ pre, rowInert ns vs r = true) →
      (∀ r ∈ some (fname, acct) :: rest, rowExact ns r = false) →
      0 < rowStartScore vs (some (fname, acct)) →
      (scanRows ns vs (pre ++ some (fname, acct) :: rest) scanInit).score =
        maxStartScore vs (some (fname, acct) :: rest) ∧
      ∃ fn ac, some (fn, ac) ∈ some (fname, acct) :: rest ∧
        (scanRows ns vs (pre ++ some (fname, acct) :: rest) scanInit).best = some ac ∧
        0 < rowStartScore vs (some (fn, ac))) := by
  constructor
  · intro ns vs pre fname acct rest st hpre hex
    have hx : normalize_committee_name fname true = ns := by
      simpa [rowExact] using hex
    induction pre generalizing st with
    | nil =>
      rw [List.nil_append, scanRows_cons_some, if_pos hx]
    | cons r pre' ih =>
      cases r with
      | none =>
        show scanRows ns vs (Option.none :: (pre' ++ _)) st = _
        rw [scanRows_cons_none]
        exact ih st (fun r hr => hpre r (by simp [hr]))
      | some rr =>
        obtain ⟨f1, a1⟩ := rr
        have hne : ¬(normalize_committee_name f1 true = ns) := by
          simpa [rowExact] using hpre (some (f1, a1)) (by simp)
        show scanRows ns vs (some (f1, a1) :: (pre' ++ _)) st = _
        rw [scanRows_cons_some, if_neg hne]
        exact ih _ (fun r hr => hpre r (by simp [hr]))
  · intro ns vs pre fname acct rest hpre hex hstart
    rw [scan_inert ns vs pre _ scanInit hpre]
    have hne : ¬(normalize_committee_name fname true = ns) := by
      simpa [rowExact] using hex (some (fname, acct)) (by simp)
    rw [scanRows_cons_some, if_neg hne]
    obtain ⟨h2s, h2b⟩ := strat2_spec vs (normalize_committee_name fname true) fname acct
      scanInit (le_refl 0)
    have hrss : rowStartScore vs (some (fname, acct)) =
        startMaxFrom vs (normalize_committee_name fname true) 0 := rfl
    set st1 := onlineStrat2 vs (normalize_committee_name fname true) fname acct scanInit
      with hst1
    have hs1 : st1.score = startMaxFrom vs (normalize_committee_name fname true) 0 := by
      rw [h2s]
      show max 0 _ = _
      rw [max_eq_right (startMaxFrom_nonneg vs _ 0 (le_refl 0))]
    have hs1pos : 0 < st1.score := by
      rw [hs1, ← hrss]
      exact hstart
    have hb1 : st1.best = some acct := by
      rcases h2b with he | ⟨hb, _, _⟩
      · exfalso
        rw [he] at hs1pos
        exact lt_irrefl 0 hs1pos
      · exact hb
    rw [if_neg (ne_of_gt hs1pos)]
    obtain ⟨ihs, ihb⟩ := scan_run ns vs rest st1 (fun r hr => hex r (by simp [hr])) hs1pos
    constructor
    · rw [ihs, hs1, maxStartScore_cons, hrss]
    · rcases ihb with hb | ⟨fn, ac, hm, hb, hs⟩
      · exact ⟨fname, acct, by simp, by rw [hb, hb1], hstart⟩
      · exact ⟨fn, ac, by simp [hm], hb, hs⟩

/-- C3 witness: the corrected precedence statement applied to a concrete
one-row response whose row starts with the single variant. -/
theorem C3_witness :
    (0 < rowStartScore [("ab").toList] (some ((("abcd").toList), (("2").toList)))) ∧
    ((scanRows (("zz").toList) [("ab").toList]
        ([] ++ some ((("abcd").toList), (("2").toList)) :: []) scanInit).score =
      maxStartScore [("ab").toList] [some ((("abcd").toList), (("2").toList))] ∧
     ∃ fn ac, some (fn, ac) ∈ [some ((("abcd").toList), (("2").toList))] ∧
       (scanRows (("zz").toList) [("ab").toList]
          ([] ++ some ((("abcd").toList), (("2").toList)) :: []) scanInit).best = some ac ∧
       0 < rowStartScore [("ab").toList] (some (fn, ac))) :=
  ⟨by decide,
   (C3_scan_precedence).2 (("zz").toList) [("ab").toList] [] (("abcd").toList) (("2").toList) []
     (by decide) (by decide) (by decide)⟩

/-! Well-formedness preservation (claim C10). -/

theorem find_cand_state_fields (st : CandState) (n : Str) (p : Option Str) (u : Bool) :
    ((find_by_name_cand st n p u).1).candidates = st.candidates ∧
    ((find_by_name_cand st n p u).1).name_index = st.name_index ∧
    ((find_by_name_cand st n p u).1).lastname_index = st.lastname_index ∧
    ((find_by_name_cand st n p u).1).component_index = st.component_index := by
  unfold find_by_name_cand
  by_cases hn : n = []
  · simp [hn]
  · simp only [if_neg hn]
    by_cases hns : normalize_name n = []
    · simp [hns]
    · simp only [if_neg hns]
      cases hc : (if u then aget? st.cache (normalize_name n, p) else Option.none) with
      | some r => simp [hc]
      | none =>
        simp only [hc]
        try dsimp only
        split_ifs <;> simp

theorem find_cand_WF (st : CandState) (n : Str) (p : Option Str) (u : Bool)
    (h : candWF st) : candWF (find_by_name_cand st n p u).1 := by
  obtain ⟨f1, f2, f3, f4⟩ := find_cand_state_fields st n p u
  unfold candWF at h ⊢
  rw [f1, f2, f3, f4]
  exact h

theorem candWF_set_store (st : CandState) (acct : Str) (row : Txn) (h : candWF st) :
    candWF { st with candidates := aset st.candidates acct row } := by
  obtain ⟨h1, h2, h3⟩ := h
  exact ⟨fun p hp a ha => aget?_aset_isSome _ _ _ _ (h1 p hp a ha),
    fun p hp a ha => aget?_aset_isSome _ _ _ _ (h2 p hp a ha),
    fun p hp a ha => aget?_aset_isSome _ _ _ _ (h3 p hp a ha)⟩

theorem index_candidate_WF (st : CandState) (acct : Str) (row : Txn) (h : candWF st)
    (ha : (aget? st.candidates acct).isSome) : candWF (index_candidate st acct row) := by
  obtain ⟨h1, h2, h3⟩ := h
  unfold candWF index_candidate
  dsimp only
  split_ifs <;>
    refine ⟨?_, ?_, ?_⟩ <;>
    first
      | exact h1 | exact h2 | exact h3
      | exact idxApp_forall _ _ _ _ h1 ha
      | exact idxApp_forall _ _ _ _ h2 ha
      | exact idxApp_forall _ _ _ _ h3 ha

theorem candAddRow_WF (st : CandState) (row : Txn) (h : candWF st) :
    candWF (candAddRow st row).1 := by
  unfold candAddRow
  dsimp only
  split_ifs with hc
  · exact h
  · apply index_candidate_WF _ _ _ (candWF_set_store st _ row h)
    rw [aget?_aset_self]
    rfl

theorem load_cand_WF (st : CandState) (hdr : Option (List Str)) (rows : List Txn)
    (st' : CandState) (n : ℕ) (h : candWF st)
    (heq : load_from_file_cand st hdr rows = Except.ok (st', n)) : candWF st' := by
  cases hdr with
  | none => simp [load_from_file_cand] at heq
  | some fns =>
    have hfold : ∀ (rows : List Txn) (p : CandState × ℕ), candWF p.1 →
        candWF (rows.foldl (fun (p : CandState × ℕ) row =>
          let q := candAddRow p.1 row
          (q.1, if q.2 then p.2 + 1 else p.2)) p).1 := by
      intro rows
      induction rows with
      | nil => intro p hp; exact hp
      | cons r rest ih =>
        intro p hp
        rw [List.foldl_cons]
        exact ih _ (candAddRow_WF p.1 r hp)
    unfold load_from_file_cand at heq
    dsimp only at heq
    rw [Except.ok.injEq, Prod.mk.injEq] at heq
    obtain ⟨heq1, heq2⟩ := heq
    rw [← heq1]
    exact hfold rows (st, 0) h

theorem commWF_set_store (st : CommState) (acct : Str) (row : Txn) (h : commWF st) :
    commWF { st with committees := aset st.committees acct row } :=
  fun p hp a ha => aget?_aset_isSome _ _ _ _ (h p hp a ha)

theorem index_committee_WF (st : CommState) (acct : Str) (nm : Str) (h : commWF st)
    (ha : (aget? st.committees acct).isSome) : commWF (index_committee st acct nm) := by
  unfold commWF index_committee
  dsimp only
  split_ifs
  · exact idxApp_forall _ _ _ _ h ha
  · exact h

theorem commAddRow_WF (st : CommState) (row : Txn) (h : commWF st) :
    commWF (commAddRow st row).1 := by
  unfold commAddRow
  dsimp only
  split_ifs with hc1 hc2
  · exact h
  · exact h
  · apply index_committee_WF _ _ _ (commWF_set_store st _ row h)
    rw [aget?_aset_self]
    rfl

theorem load_comm_WF (st : CommState) (hdr : Option (List Str)) (rows : List Txn)
    (st' : CommState) (n : ℕ) (h : commWF st)
    (heq : load_from_file_comm st hdr rows = Except.ok (st', n)) : commWF st' := by
  cases hdr with
  | none => simp [load_from_file_comm] at heq
  | some fns =>
    have hfold : ∀ (rows : List Txn) (p : CommState × ℕ), commWF p.1 →
        commWF (rows.foldl (fun (p : CommState × ℕ) row =>
          let q := commAddRow p.1 row
          (q.1, if q.2 then p.2 + 1 else p.2)) p).1 := by
      intro rows
      induction rows with
      | nil => intro p hp; exact hp
      | cons r rest ih =>
        intro p hp
        rw [List.foldl_cons]
        exact ih _ (commAddRow_WF p.1 r hp)
    unfold load_from_file_comm at heq
    dsimp only at heq
    rw [Except.ok.injEq, Prod.mk.injEq] at heq
    obtain ⟨heq1, heq2⟩ := heq
    rw [← heq1]
    exact hfold rows (st, 0) h

theorem find_comm_WF (online : Str → Option MatchResult) (st : CommState) (n : Str)
    (uc fb : Bool) (h : commWF st) : commWF (find_by_name_comm online st n uc fb).1 := by
  have hadd : ∀ (om : MatchResult) (found : Str),
      commWF (index_committee { st with committees := aset st.committees om.account om.entity }
        om.account found) := by
    intro om found
    exact index_committee_WF _ om.account found (commWF_set_store st _ _ h)
      (by rw [aget?_aset_self]; rfl)
  unfold find_by_name_comm
  by_cases hn : n = []
  · simp only [if_pos hn]; exact h
  · simp only [if_neg hn]
    by_cases hns : normalize_committee_name n true = []
    · simp only [if_pos hns]; exact h
    · simp only [if_neg hns]
      cases hc : (if uc then aget? st.cache (normalize_committee_name n true) else Option.none) with
      | some r => simp only [hc]; exact h
      | none =>
        simp only [hc]
        try dsimp only
        cases ho : online n with
        | none =>
          simp only [ho]
          try dsimp only
          split_ifs <;> exact h
        | some om =>
          simp only [ho]
          try dsimp only
          split_ifs <;> first | exact h | exact hadd om _

/-! Claim C10 (confirmed). -/

/-- C10: after any sequence of load and find operations (including the
online fallback's back-fill of the committee store and index), every
account number appearing in any index list is a key of the corresponding
primary store, so the direct store accesses of find_by_name cannot miss. -/
theorem C10_index_accounts_in_store :
    (∀ st : CandState, CandReach st → candWF st) ∧
    (∀ st : CommState, CommReach st → commWF st) := by
  constructor
  · intro st h
    induction h with
    | init =>
      exact ⟨by intro p hp; simp [emptyCand] at hp,
        by intro p hp; simp [emptyCand] at hp,
        by intro p hp; simp [emptyCand] at hp⟩
    | load st hdr rows st' n h heq ih => exact load_cand_WF st hdr rows st' n ih heq
    | find st name party uc h ih => exact find_cand_WF st name party uc ih
  · intro st h
    induction h with
    | init => intro p hp; simp [emptyComm] at hp
    | load st hdr rows st' n h heq ih => exact load_comm_WF st hdr rows st' n ih heq
    | find st online name uc fb h ih => exact find_comm_WF online st name uc fb ih

/-- C10 witness: the invariant instantiated at the initial states, which
are reachable by construction. -/
theorem C10_witness : candWF emptyCand ∧ commWF emptyComm :=
  ⟨(C10_index_accounts_in_store).1 emptyCand CandReach.init,
   (C10_index_accounts_in_store).2 emptyComm CommReach.init⟩

/-! Emission-fold lemmas for find_by_name's matching loops (claim C7). -/

section EmitFold

variable (cond : Str → Bool) (mk : Str → MatchResult)

theorem emitFold_seen_eq (l : List Str) (hmk : ∀ a, (mk a).account = a) :
    ∀ p : List MatchResult × List Str, p.2 = p.1.map (fun m => m.account) →
    (l.foldl (fun p a => if a ∈ p.2 then p
      else if cond a then (p.1 ++ [mk a], p.2 ++ [a]) else p) p).2 =
    (l.foldl (fun p a => if a ∈ p.2 then p
      else if cond a then (p.1 ++ [mk a], p.2 ++ [a]) else p) p).1.map (fun m => m.account) := by
  induction l with
  | nil => intro p hp; exact hp
  | cons a rest ih =>
    intro p hp
    rw [List.foldl_cons]
    by_cases hseen : a ∈ p.2
    · simp only [hseen, if_true]
      exact ih p hp
    · simp only [hseen, if_false]
      by_cases hcond : cond a = true
      · simp only [hcond, if_true]
        apply ih
        simp [hp, hmk a]
      · simp only [hcond, if_false]
        exact ih p hp

theorem emitFold_delta (l : List Str) :
    ∀ p : List MatchResult × List Str,
    ∃ d, (l.foldl (fun p a => if a ∈ p.2 then p
      else if cond a then (p.1 ++ [mk a], p.2 ++ [a]) else p) p).1 = p.1 ++ d ∧
      ∀ m ∈ d, ∃ a ∈ l, m = mk a ∧ cond a = true := by
  induction l with
  | nil => intro p; exact ⟨[], by simp, by simp⟩
  | cons a rest ih =>
    intro p
    rw [List.foldl_cons]
    by_cases hseen : a ∈ p.2
    · simp only [hseen, if_true]
      obtain ⟨d, hd1, hd2⟩ := ih p
      exact ⟨d, hd1, fun m hm => by
        obtain ⟨a', ha', hm', hc'⟩ := hd2 m hm
        exact ⟨a', by simp [ha'], hm', hc'⟩⟩
    · simp only [hseen, if_false]
      by_cases hcond : cond a = true
      · simp only [hcond, if_true]
        obtain ⟨d, hd1, hd2⟩ := ih (p.1 ++ [mk a], p.2 ++ [a])
        refine ⟨mk a :: d, by simpa using hd1, fun m hm => ?_⟩
        rcases List.mem_cons.mp hm with he | hm'
        · exact ⟨a, by simp, he, hcond⟩
        · obtain ⟨a', ha', hme, hc'⟩ := hd2 m hm'
          exact ⟨a', by simp [ha'], hme, hc'⟩
      · simp only [hcond, if_false]
        obtain ⟨d, hd1, hd2⟩ := ih p
        exact ⟨d, hd1, fun m hm => by
          obtain ⟨a', ha', hm', hc'⟩ := hd2 m hm
          exact ⟨a', by simp [ha'], hm', hc'⟩⟩

theorem emitFold_seen_mono (l : List Str) :
    ∀ (p : List MatchResult × List Str) (x : Str), x ∈ p.2 →
    x ∈ (l.foldl (fun p a => if a ∈ p.2 then p
      else if cond a then (p.1 ++ [mk a], p.2 ++ [a]) else p) p).2 := by
  induction l with
  | nil => intro p x hx; exact hx
  | cons a rest ih =>
    intro p x hx
    rw [List.foldl_cons]
    by_cases hseen : a ∈ p.2
    · simp only [hseen, if_true]; exact ih p x hx
    · simp only [hseen, if_false]
      by_cases hcond : cond a = true
      · simp only [hcond, if_true]
        exact ih _ x (by simp [hx])
      · simp only [hcond, if_false]; exact ih p x hx

theorem emitFold_mem_seen (l : List Str) :
    ∀ (p : List MatchResult × List Str) (a : Str), a ∈ l → cond a = true →
    a ∈ (l.foldl (fun p a => if a ∈ p.2 then p
      else if cond a then (p.1 ++ [mk a], p.2 ++ [a]) else p) p).2 := by
  induction l with
  | nil => intro p a ha; exact absurd ha (List.not_mem_nil a)
  | cons b rest ih =>
    intro p a ha hc
    rw [List.foldl_cons]
    rcases List.mem_cons.mp ha with he | hrest
    · subst he
      by_cases hseen : a ∈ p.2
      · simp only [hseen, if_true]
        exact emitFold_seen_mono cond mk rest p a hseen
      · simp only [hseen, if_false, hc, if_true]
        exact emitFold_seen_mono cond mk rest _ a (by simp)
    · by_cases hseen : b ∈ p.2
      · simp only [hseen, if_true]
        exact ih p a hrest hc
      · simp only [hseen, if_false]
        by_cases hcond : cond b = true
        · simp only [hcond, if_true]
          exact ih _ a hrest hc
        · simp only [hcond, if_false]
          exact ih p a hrest hc

theorem emitFold_seen_nodup (l : List Str) :
    ∀ p : List MatchResult × List Str, p.2.Nodup →
    (l.foldl (fun p a => if a ∈ p.2 then p
      else if cond a then (p.1 ++ [mk a], p.2 ++ [a]) else p) p).2.Nodup := by
  induction l with
  | nil => intro p hp; exact hp
  | cons a rest ih =>
    intro p hp
    rw [List.foldl_cons]
    by_cases hseen : a ∈ p.2
    · simp only [hseen, if_true]; exact ih p hp
    · simp only [hseen, if_false]
      by_cases hcond : cond a = true
      · simp only [hcond, if_true]
        apply ih
        simp only []
        rw [List.nodup_append]
        exact ⟨hp, List.nodup_singleton a, by
          intro x hx hxa
          simp at hxa
          subst hxa
          exact hseen hx⟩
      · simp only [hcond, if_false]; exact ih p hp

end EmitFold

theorem mem_idxGet_isSome {κ : Type} [DecidableEq κ] (m : List (κ × List Str)) (k : κ) (a : Str)
    (h : a ∈ idxGet m k) : (aget? m k).isSome := by
  unfold idxGet at h
  cases hg : aget? m k with
  | none => rw [hg] at h; simp at h
  | some l => rfl

theorem sortByConfDesc_of_sorted :
    ∀ l : List MatchResult,
    List.Pairwise (fun x y => y.match_confidence ≤ x.match_confidence) l →
    sortByConfDesc l = l := by
  intro l
  induction l with
  | nil => intro _; rfl
  | cons x xs ih =>
    intro hp
    rw [List.pairwise_cons] at hp
    obtain ⟨hx, hxs⟩ := hp
    show insertDesc x (sortByConfDesc xs) = x :: xs
    rw [ih hxs]
    cases xs with
    | nil => rfl
    | cons y ys =>
      show (if x.match_confidence < y.match_confidence then y :: insertDesc x ys
        else x :: y :: ys) = x :: y :: ys
      rw [if_neg (not_lt.mpr (hx y (by simp)))]

theorem countP_eq_one_of_nodup_mem {l : List Str} {a : Str} (h : l.Nodup) (ha : a ∈ l) :
    l.countP (fun x => x = a) = 1 := by
  induction l with
  | nil => exact absurd ha (List.not_mem_nil a)
  | cons b rest ih =>
    rw [List.nodup_cons] at h
    rw [List.countP_cons]
    rcases List.mem_cons.mp ha with he | hmem
    · subst he
      have hz : rest.countP (fun x => x = a) = 0 := by
        rw [List.countP_eq_zero]
        intro x hx
        try simp only [decide_eq_true_eq]
        intro hxa
        exact h.1 (hxa ▸ hx)
      simp [hz]
    · rw [ih h.2 hmem]
      have hb : ¬(b = a) := fun he => h.1 (he ▸ hmem)
      simp [hb]

theorem pairwise_of_forall_mem {α : Type} {R : α → α → Prop} :
    ∀ l : List α, (∀ x ∈ l, ∀ y ∈ l, R x y) → List.Pairwise R l := by
  intro l
  induction l with
  | nil => intro _; exact List.Pairwise.nil
  | cons x xs ih =>
    intro h
    exact List.Pairwise.cons (fun y hy => h x (by simp) y (by simp [hy]))
      (ih (fun a ha b hb => h a (by simp [ha]) b (by simp [hb])))

theorem find_cand_no_cache (st : CandState) (name : Str) (party : Option Str)
    (hn : name ≠ []) (hns : normalize_name name ≠ [])
    (h1 : (aget? st.name_index (normalize_name name)).isSome = true)
    (hc12 : (parse_name_components name).1 ≠ [] ∧ (parse_name_components name).2.1 ≠ [])
    (h2 : (aget? st.component_index (normalize_name (parse_name_components name).1,
      normalize_name (parse_name_components name).2.1)).isSome = true) :
    (find_by_name_cand st name party false).2 =
      sortByConfDesc
        ((idxGet st.component_index (normalize_name (parse_name_components name).1,
            normalize_name (parse_name_components name).2.1)).foldl
          (candComponentStep st party)
          ((idxGet st.name_index (normalize_name name)).foldl
            (candExactStep st party) ([], []))).1 := by
  unfold find_by_name_cand
  rw [if_neg hn]
  dsimp only
  rw [if_neg hns]
  simp only [Bool.false_eq_true, if_false]
  rw [if_pos h1, if_pos hc12, if_pos h2]

/-! Claim C7 (confirmed). -/

/-- C7: on any populated index, when both the exact and the component
strategy would match the same account (its name-index entry and its
component-index entry both contain the account and the party filter
passes), find returns that account exactly once, as an exact match with
confidence 1.0 and never again as a component match; and the whole result
list decomposes as the exact matches (confidence 1.0, in index-encounter
order) followed by the component matches (confidence 0.95), the stable
sort leaving that order unchanged. -/
theorem C7_exact_outranks_component (st : CandState) (name : Str) (party : Option Str)
    (acct : Str) (hn : name ≠ []) (hns : normalize_name name ≠ [])
    (hacct1 : acct ∈ idxGet st.name_index (normalize_name name))
    (hc1 : (parse_name_components name).1 ≠ [])
    (hc2 : (parse_name_components name).2.1 ≠ [])
    (hacct2 : acct ∈ idxGet st.component_index
      (normalize_name (parse_name_components name).1,
       normalize_name (parse_name_components name).2.1))
    (hparty : party_matches ((aget? st.candidates acct).getD []) party = true) :
    ((find_by_name_cand st name party false).2.countP (fun m => m.account = acct) = 1) ∧
    (∀ m ∈ (find_by_name_cand st name party false).2, m.account = acct →
      m.match_method = ("exact").toList ∧ m.match_confidence = 1) ∧
    (∃ ex comp, (find_by_name_cand st name party false).2 = ex ++ comp ∧
      (∀ m ∈ ex, m.match_method = ("exact").toList ∧ m.match_confidence = 1) ∧
      (∀ m ∈ comp, m.match_method = ("component").toList ∧
        m.match_confidence = mkRat 95 100)) := by
  have hfind := find_cand_no_cache st name party hn hns
    (mem_idxGet_isSome _ _ _ hacct1) ⟨hc1, hc2⟩ (mem_idxGet_isSome _ _ _ hacct2)
  set l1 := idxGet st.name_index (normalize_name name) with hl1
  set l2 := idxGet st.component_index (normalize_name (parse_name_components name).1,
    normalize_name (parse_name_components name).2.1) with hl2
  set condE := fun a => party_matches ((aget? st.candidates a).getD []) party with hcondE
  set mkE := fun a => (⟨(aget? st.candidates a).getD [], ("exact").toList, 1, a,
    Option.none⟩ : MatchResult) with hmkE
  set mkC := fun a => (⟨(aget? st.candidates a).getD [], ("component").toList, mkRat 95 100, a,
    Option.none⟩ : MatchResult) with hmkC
  have hstepE : candExactStep st party = fun p a => if a ∈ p.2 then p
      else if condE a then (p.1 ++ [mkE a], p.2 ++ [a]) else p := rfl
  have hstepC : candComponentStep st party = fun p a => if a ∈ p.2 then p
      else if condE a then (p.1 ++ [mkC a], p.2 ++ [a]) else p := rfl
  set p1 := l1.foldl (candExactStep st party) ([], []) with hp1
  set p2 := l2.foldl (candComponentStep st party) p1 with hp2
  have hmkEacc : ∀ a, (mkE a).account = a := fun a => rfl
  have hmkCacc : ∀ a, (mkC a).account = a := fun a => rfl
  -- delta decompositions
  have hdelta1 : ∃ d, p1.1 = ([] : List MatchResult) ++ d ∧
      ∀ m ∈ d, ∃ a ∈ l1, m = mkE a ∧ condE a = true := by
    rw [hp1, hstepE]
    exact emitFold_delta condE mkE l1 ([], [])
  have hdelta2 : ∃ d, p2.1 = p1.1 ++ d ∧
      ∀ m ∈ d, ∃ a ∈ l2, m = mkC a ∧ condE a = true := by
    rw [hp2, hstepC]
    exact emitFold_delta condE mkC l2 p1
  obtain ⟨d1, hd1, hd1m⟩ := hdelta1
  obtain ⟨d2, hd2, hd2m⟩ := hdelta2
  rw [List.nil_append] at hd1
  -- seen lists are the emitted accounts
  have hseen1 : p1.2 = p1.1.map (fun m => m.account) := by
    rw [hp1, hstepE]
    exact emitFold_seen_eq condE mkE l1 hmkEacc ([], []) rfl
  have hseen2 : p2.2 = p2.1.map (fun m => m.account) := by
    rw [hp2, hstepC]
    exact emitFold_seen_eq condE mkC l2 hmkCacc p1 hseen1
  have hnodup2 : p2.2.Nodup := by
    rw [hp2, hstepC]
    apply emitFold_seen_nodup
    rw [hp1, hstepE]
    apply emitFold_seen_nodup
    exact List.nodup_nil
  -- acct is emitted by the exact pass and stays present
  have hacct_p1 : acct ∈ p1.2 := by
    rw [hp1, hstepE]
    exact emitFold_mem_seen condE mkE l1 ([], []) acct hacct1 hparty
  have hacct_p2 : acct ∈ p2.2 := by
    rw [hp2, hstepC]
    exact emitFold_seen_mono condE mkC l2 p1 acct hacct_p1
  -- the sort is the identity on the already-sorted list
  have hconf1 : ∀ m ∈ p1.1, m.match_method = ("exact").toList ∧ m.match_confidence = 1 := by
    intro m hm
    rw [hd1] at hm
    obtain ⟨a, _, hma, _⟩ := hd1m m hm
    rw [hma]
    exact ⟨rfl, rfl⟩
  have hconf2 : ∀ m ∈ d2, m.match_method = ("component").toList ∧
      m.match_confidence = mkRat 95 100 := by
    intro m hm
    obtain ⟨a, _, hma, _⟩ := hd2m m hm
    rw [hma]
    exact ⟨rfl, rfl⟩
  have hsorted : sortByConfDesc p2.1 = p2.1 := by
    apply sortByConfDesc_of_sorted
    rw [hd2]
    rw [List.pairwise_append]
    refine ⟨pairwise_of_forall_mem _ ?_, pairwise_of_forall_mem _ ?_, ?_⟩
    · intro x hx y hy
      rw [(hconf1 x hx).2, (hconf1 y hy).2]
    · intro x hx y hy
      rw [(hconf2 x hx).2, (hconf2 y hy).2]
    · intro x hx y hy
      rw [(hconf1 x hx).2, (hconf2 y hy).2]
      decide
  have hms : (find_by_name_cand st name party false).2 = p2.1 := by
    rw [hfind]
    exact hsorted
  have hcount : p2.1.countP (fun m => m.account = acct) = 1 := by
    have hmapped : p2.1.countP (fun m => m.account = acct) =
        (p2.1.map (fun m => m.account)).countP (fun x => x = acct) := by
      rw [List.countP_map]
      rfl
    rw [hmapped, ← hseen2]
    exact countP_eq_one_of_nodup_mem hnodup2 hacct_p2
  refine ⟨by rw [hms]; exact hcount, ?_, ?_⟩
  · intro m hm hmacct
    rw [hms, hd2] at hm
    rcases List.mem_append.mp hm with hm1 | hm1
    · exact hconf1 m hm1
    · exfalso
      obtain ⟨me, hme, hmeacct⟩ := List.mem_map.mp (by rw [← hseen1]; exact hacct_p1)
      have hge : 2 ≤ p2.1.countP (fun m => m.account = acct) := by
        rw [hd2, List.countP_append]
        have hx1 : 0 < p1.1.countP (fun m => m.account = acct) := by
          rw [List.countP_pos_iff]
          exact ⟨me, hme, by simp [hmeacct]⟩
        have hx2 : 0 < d2.countP (fun m => m.account = acct) := by
          rw [List.countP_pos_iff]
          exact ⟨m, hm1, by simp [hmacct]⟩
        omega
      rw [hcount] at hge
      omega
  · refine ⟨p1.1, d2, by rw [hms, hd2], hconf1, hconf2⟩

/-- C7 witness: the DeSantis fixture, where the query matches account
12345 both exactly (key "DeSantis, Ron") and by components
("Ron", "DeSantis"). -/
theorem C7_witness :
    ((("DeSantis, Ron").toList : Str) ≠ []) ∧
    (((find_by_name_cand exCand (("DeSantis, Ron").toList) Option.none false).2.countP
        (fun m => m.account = (("12345").toList))) = 1) := by
  refine ⟨by decide, ?_⟩
  exact (C7_exact_outranks_component exCand (("DeSantis, Ron").toList) Option.none
    (("12345").toList) (by decide) (by decide) (by decide) (by decide) (by decide)
    (by decide) (by decide)).1

/-! Grouping and slot-writing lemmas for the enrichment engine
(claims C1, C2). -/

theorem addGroup_mem_spec :
    ∀ (gs : List ((PyVal × PyVal) × List ℕ)) (key : PyVal × PyVal) (i : ℕ) (g),
    g ∈ addGroup gs key i → ∀ j ∈ g.2,
    (∃ g' ∈ gs, g'.1 = g.1 ∧ j ∈ g'.2) ∨ (j = i ∧ g.1 = key) := by
  intro gs
  induction gs with
  | nil =>
    intro key i g hg j hj
    simp [addGroup] at hg
    subst hg
    simp at hj
    exact Or.inr ⟨hj, rfl⟩
  | cons q rest ih =>
    intro key i g hg j hj
    obtain ⟨k, l⟩ := q
    by_cases hk : k = key
    · simp only [addGroup, hk, if_true] at hg
      rcases List.mem_cons.mp hg with he | hm
      · subst he
        rcases List.mem_append.mp hj with hj1 | hj1
        · exact Or.inl ⟨(k, l), by simp, hk, hj1⟩
        · simp at hj1
          exact Or.inr ⟨hj1, rfl⟩
      · exact Or.inl ⟨g, by simp [hm], rfl, hj⟩
    · simp only [addGroup, hk, if_false] at hg
      rcases List.mem_cons.mp hg with he | hm
      · subst he
        exact Or.inl ⟨(k, l), by simp, rfl, hj⟩
      · rcases ih key i g hm j hj with ⟨g', hg', he1, hj1⟩ | hr
        · exact Or.inl ⟨g', by simp [hg'], he1, hj1⟩
        · exact Or.inr hr

theorem addGroup_mono :
    ∀ (gs : List ((PyVal × PyVal) × List ℕ)) (key : PyVal × PyVal) (i : ℕ) (g) (j : ℕ),
    g ∈ gs → j ∈ g.2 → ∃ g' ∈ addGroup gs key i, g'.1 = g.1 ∧ j ∈ g'.2 := by
  intro gs
  induction gs with
  | nil =>
    intro key i g j hg
    exact absurd hg (List.not_mem_nil g)
  | cons q rest ih =>
    intro key i g j hg hj
    obtain ⟨k, l⟩ := q
    by_cases hk : k = key
    · simp only [addGroup, hk, if_true]
      rcases List.mem_cons.mp hg with he | hm
      · subst he
        exact ⟨(key, l ++ [i]), by simp, hk.symm, by simp [hj]⟩
      · exact ⟨g, by simp [hm], rfl, hj⟩
    · simp only [addGroup, hk, if_false]
      rcases List.mem_cons.mp hg with he | hm
      · subst he
        exact ⟨(k, l), by simp, rfl, hj⟩
      · obtain ⟨g', hg', he1, hj1⟩ := ih key i g j hm hj
        exact ⟨g', by simp [hg'], he1, hj1⟩

theorem addGroup_self :
    ∀ (gs : List ((PyVal × PyVal) × List ℕ)) (key : PyVal × PyVal) (i : ℕ),
    ∃ g ∈ addGroup gs key i, g.1 = key ∧ i ∈ g.2 := by
  intro gs
  induction gs with
  | nil => intro key i; exact ⟨(key, [i]), by simp [addGroup], rfl, by simp⟩
  | cons q rest ih =>
    intro key i
    obtain ⟨k, l⟩ := q
    by_cases hk : k = key
    · simp only [addGroup, hk, if_true]
      exact ⟨(key, l ++ [i]), by simp, rfl, by simp⟩
    · simp only [addGroup, hk, if_false]
      obtain ⟨g, hg, he, hi⟩ := ih key i
      exact ⟨g, by simp [hg], he, hi⟩

theorem buildGroupsAux_cons (nf : Str) (pf : Option Str) (t : Txn) (rest : List Txn)
    (i : ℕ) (gs : List ((PyVal × PyVal) × List ℕ)) (es : List ℕ) :
    buildGroupsAux nf pf (t :: rest) i gs es =
      (if falsy (txnName t nf) then buildGroupsAux nf pf rest (i + 1) gs (es ++ [i])
       else buildGroupsAux nf pf rest (i + 1)
         (addGroup gs (txnName t nf, txnParty t pf) i) es) := rfl

theorem buildAux_spec (nf : Str) (pf : Option Str) (f : ℕ → Txn) :
    ∀ (rem : List Txn) (i0 : ℕ) (gs : List ((PyVal × PyVal) × List ℕ)) (es : List ℕ),
    (∀ k, k < rem.length → rem.getD k [] = f (i0 + k)) →
    (∀ g ∈ gs, ∀ j ∈ g.2, falsy (txnName (f j) nf) = false ∧
      (txnName (f j) nf, txnParty (f j) pf) = g.1) →
    (∀ j ∈ es, falsy (txnName (f j) nf) = true) →
    (∀ j, j < i0 → (∃ g ∈ gs, j ∈ g.2) ∨ j ∈ es) →
    (∀ g ∈ (buildGroupsAux nf pf rem i0 gs es).1, ∀ j ∈ g.2,
      falsy (txnName (f j) nf) = false ∧
      (txnName (f j) nf, txnParty (f j) pf) = g.1) ∧
    (∀ j ∈ (buildGroupsAux nf pf rem i0 gs es).2, falsy (txnName (f j) nf) = true) ∧
    (∀ j, j < i0 + rem.length →
      (∃ g ∈ (buildGroupsAux nf pf rem i0 gs es).1, j ∈ g.2) ∨
      j ∈ (buildGroupsAux nf pf rem i0 gs es).2) := by
  intro rem
  induction rem with
  | nil =>
    intro i0 gs es hrem hgs hes hcov
    exact ⟨hgs, hes, fun j hj => hcov j (by simpa using hj)⟩
  | cons t rest ih =>
    intro i0 gs es hrem hgs hes hcov
    have ht : t = f i0 := by
      have := hrem 0 (by simp)
      simpa using this
    have hrem' : ∀ k, k < rest.length → rest.getD k [] = f (i0 + 1 + k) := by
      intro k hk
      have h1 := hrem (k + 1) (by simp; omega)
      simp only [List.getD_cons_succ] at h1
      rw [h1]
      congr 1
      omega
    by_cases hf : falsy (txnName t nf) = true
    · have hstep : buildGroupsAux nf pf (t :: rest) i0 gs es =
          buildGroupsAux nf pf rest (i0 + 1) gs (es ++ [i0]) := by
        rw [buildGroupsAux_cons, if_pos hf]
      rw [hstep]
      have hes' : ∀ j ∈ es ++ [i0], falsy (txnName (f j) nf) = true := by
        intro j hj
        rcases List.mem_append.mp hj with hj1 | hj1
        · exact hes j hj1
        · simp at hj1
          subst hj1
          rw [← ht]
          exact hf
      have hcov' : ∀ j, j < i0 + 1 → (∃ g ∈ gs, j ∈ g.2) ∨ j ∈ es ++ [i0] := by
        intro j hj
        by_cases hji : j < i0
        · rcases hcov j hji with h1 | h1
          · exact Or.inl h1
          · exact Or.inr (by simp [h1])
        · have hji0 : j = i0 := by omega
          subst hji0
          exact Or.inr (by simp)
      obtain ⟨a1, a2, a3⟩ := ih (i0 + 1) gs (es ++ [i0]) hrem' hgs hes' hcov'
      refine ⟨a1, a2, fun j hj => a3 j ?_⟩
      simp only [List.length_cons] at hj
      omega
    · have hff : falsy (txnName t nf) = false := by rwa [Bool.not_eq_true] at hf
      have hstep : buildGroupsAux nf pf (t :: rest) i0 gs es =
          buildGroupsAux nf pf rest (i0 + 1)
            (addGroup gs (txnName t nf, txnParty t pf) i0) es := by
        rw [buildGroupsAux_cons, if_neg hf]
      rw [hstep]
      set key := (txnName t nf, txnParty t pf) with hkey
      have hgs' : ∀ g ∈ addGroup gs key i0, ∀ j ∈ g.2,
          falsy (txnName (f j) nf) = false ∧
          (txnName (f j) nf, txnParty (f j) pf) = g.1 := by
        intro g hg j hj
        rcases addGroup_mem_spec gs key i0 g hg j hj with ⟨g', hg', he, hj'⟩ | ⟨hji, hgk⟩
        · obtain ⟨hfj, hkj⟩ := hgs g' hg' j hj'
          exact ⟨hfj, by rw [hkj, he]⟩
        · subst hji
          constructor
          · rw [← ht]; exact hff
          · rw [hgk, hkey, ← ht]
      have hcov' : ∀ j, j < i0 + 1 → (∃ g ∈ addGroup gs key i0, j ∈ g.2) ∨ j ∈ es := by
        intro j hj
        by_cases hji : j < i0
        · rcases hcov j hji with ⟨g, hg, hjg⟩ | h1
          · obtain ⟨g', hg', _, hj'⟩ := addGroup_mono gs key i0 g j hg hjg
            exact Or.inl ⟨g', hg', hj'⟩
          · exact Or.inr h1
        · have hji0 : j = i0 := by omega
          obtain ⟨g, hg, _, hig⟩ := addGroup_self gs key i0
          rw [hji0]
          exact Or.inl ⟨g, hg, hig⟩
      obtain ⟨a1, a2, a3⟩ := ih (i0 + 1) (addGroup gs key i0) es hrem' hgs' hes hcov'
      refine ⟨a1, a2, fun j hj => a3 j ?_⟩
      simp only [List.length_cons] at hj
      omega

theorem writeAll_spec (v : ℕ → Txn) :
    ∀ (ps : List (ℕ × Txn)) (f0 : ℕ → Option Txn) (j : ℕ),
    (∀ p ∈ ps, p.2 = v p.1) →
    ((∃ p ∈ ps, p.1 = j) →
      (ps.foldl (fun (f : ℕ → Option Txn) p => fun j' => if j' = p.1 then some p.2 else f j')
        f0) j = some (v j)) ∧
    ((∀ p ∈ ps, p.1 ≠ j) →
      (ps.foldl (fun (f : ℕ → Option Txn) p => fun j' => if j' = p.1 then some p.2 else f j')
        f0) j = f0 j) := by
  intro ps
  induction ps with
  | nil =>
    intro f0 j hall
    constructor
    · intro hex
      obtain ⟨p, hp, _⟩ := hex
      exact absurd hp (List.not_mem_nil p)
    · intro _; rfl
  | cons p rest ih =>
    intro f0 j hall
    have hall' : ∀ q ∈ rest, q.2 = v q.1 := fun q hq => hall q (by simp [hq])
    constructor
    · intro hex
      rw [List.foldl_cons]
      by_cases hrest : ∃ q ∈ rest, q.1 = j
      · exact (ih _ j hall').1 hrest
      · push_neg at hrest
        have hpj : p.1 = j := by
          obtain ⟨q, hq, hqj⟩ := hex
          rcases List.mem_cons.mp hq with he | hm
          · rw [← he]; exact hqj
          · exact absurd hqj (hrest q hm)
        rw [(ih _ j hall').2 hrest]
        rw [hall p (by simp)]
        simp [hpj]
    · intro hnone
      rw [List.foldl_cons]
      rw [(ih _ j hall').2 (fun q hq => hnone q (by simp [hq]))]
      have hpj : ¬(j = p.1) := fun he => hnone p (by simp) he.symm
      simp only [hpj, if_false]

/-- C6 witness: the amended statement applied to concrete inputs — the
committee conjunct on the Foo fixture, and the candidate conjunct with
two distinct parties. -/
theorem C6_witness :
    (some (("DEM").toList) ≠ some (("REP").toList)) ∧
    (find_by_name_cand ((find_by_name_cand exCand (("Ron DeSantis").toList)
        (some (("DEM").toList)) true).1) (("Ron DeSantis").toList)
        (some (("REP").toList)) true).2 =
      (find_by_name_cand exCand (("Ron DeSantis").toList) (some (("REP").toList)) true).2 :=
  ⟨by decide, (C6_cache_keying).2 exCand (("Ron DeSantis").toList)
    (some (("DEM").toList)) (some (("REP").toList)) (by decide)⟩

/-! Slot-level characterization of merge_with_transactions. -/

theorem merge_out_get (asgs : List (ℕ × Txn)) (n i : ℕ) (hi : i < n) (v : ℕ → Txn)
    (hall : ∀ p ∈ asgs, p.2 = v p.1) (hex : ∃ p ∈ asgs, p.1 = i) :
    ((List.range n).map (fun j =>
      (asgs.foldl (fun (f : ℕ → Option Txn) p => fun j' => if j' = p.1 then some p.2 else f j')
        (fun _ => Option.none) j).getD [])).getD i [] = v i := by
  have hw := (writeAll_spec v asgs (fun _ => Option.none) i hall).1 hex
  have hlen : i < ((List.range n).map (fun j =>
      (asgs.foldl (fun (f : ℕ → Option Txn) p => fun j' => if j' = p.1 then some p.2 else f j')
        (fun _ => Option.none) j).getD [])).length := by
    simp [hi]
  rw [List.getD_eq_get _ _ hlen, List.get_map, List.get_range]
  show (asgs.foldl (fun (f : ℕ → Option Txn) p => fun j' => if j' = p.1 then some p.2 else f j')
        (fun _ => Option.none) i).getD [] = v i
  rw [hw]
  rfl

theorem merge_get_eq (resolve : PyVal → PyVal → Option BestRes) (txns : List Txn)
    (nf : Str) (pf : Option Str) (i : ℕ) (hi : i < txns.length) :
    (merge_with_transactions resolve txns nf pf).getD i [] =
      enrichOne (mergeRes resolve nf pf (txns.getD i [])) (txns.getD i []) := by
  have hlen0 : ¬(txns.length = 0) := by omega
  unfold merge_with_transactions
  rw [if_neg hlen0]
  dsimp only
  obtain ⟨hgs, hes, hcov⟩ := buildAux_spec nf pf (fun j => txns.getD j []) txns 0 [] []
    (fun k _ => by simp)
    (fun g hg => absurd hg (List.not_mem_nil g))
    (fun j hj => absurd hj (List.not_mem_nil j))
    (fun j hj => absurd hj (Nat.not_lt_zero j))
  apply merge_out_get _ txns.length i hi
    (fun j => enrichOne (mergeRes resolve nf pf (txns.getD j [])) (txns.getD j []))
  · intro p hp
    show p.2 = enrichOne (mergeRes resolve nf pf (txns.getD p.1 [])) (txns.getD p.1 [])
    rcases List.mem_append.mp hp with hp1 | hp1
    · rw [List.mem_flatten] at hp1
      obtain ⟨s, hs, hps⟩ := hp1
      rw [List.mem_map] at hs
      obtain ⟨g, hg, hsg⟩ := hs
      rw [← hsg] at hps
      rw [List.mem_map] at hps
      obtain ⟨idx, hidx, hpidx⟩ := hps
      obtain ⟨hfj, hkey⟩ := hgs g hg idx hidx
      have hfj' : falsy (txnName (txns.getD idx []) nf) = false := hfj
      have h1 : txnName (txns.getD idx []) nf = g.1.1 := congrArg Prod.fst hkey
      have h2 : txnParty (txns.getD idx []) pf = g.1.2 := congrArg Prod.snd hkey
      rw [← hpidx]
      show enrichOne (resolve g.1.1 g.1.2) (txns.getD idx []) =
        enrichOne (mergeRes resolve nf pf (txns.getD idx [])) (txns.getD idx [])
      unfold mergeRes
      have hne : ¬(falsy (txnName (txns.getD idx []) nf) = true) := by
        rw [hfj']
        simp
      rw [if_neg hne, h1, h2]
    · rw [List.mem_map] at hp1
      obtain ⟨idx, hidx, hpidx⟩ := hp1
      have hf : falsy (txnName (txns.getD idx []) nf) = true := hes idx hidx
      have hp1eq : p.1 = idx := by rw [← hpidx]
      have hp2eq : p.2 = nullFill (txns.getD idx []) := by rw [← hpidx]
      rw [hp2eq, hp1eq]
      have hmr : mergeRes resolve nf pf (txns.getD idx []) = Option.none := by
        unfold mergeRes
        rw [if_pos hf]
      rw [hmr]
      rfl
  · have hcov' := hcov i (by omega : i < 0 + txns.length)
    rcases hcov' with ⟨g, hg, hig⟩ | hie
    · refine ⟨(i, enrichOne (resolve g.1.1 g.1.2) (txns.getD i [])), ?_, rfl⟩
      apply List.mem_append_left
      rw [List.mem_flatten]
      exact ⟨g.2.map (fun idx => (idx, enrichOne (resolve g.1.1 g.1.2) (txns.getD idx []))),
        List.mem_map.mpr ⟨g, hg, rfl⟩, List.mem_map.mpr ⟨i, hig, rfl⟩⟩
    · refine ⟨(i, nullFill (txns.getD i [])), ?_, rfl⟩
      apply List.mem_append_right
      exact List.mem_map.mpr ⟨i, hie, rfl⟩

theorem merge_length (resolve : PyVal → PyVal → Option BestRes) (txns : List Txn)
    (nf : Str) (pf : Option Str) :
    (merge_with_transactions resolve txns nf pf).length = txns.length := by
  unfold merge_with_transactions
  split_ifs with h
  · rw [h]
    rfl
  · simp

/-! Field-level lemmas about the enrichment of a single transaction. -/

theorem aget?_eq_none {κ β : Type} [DecidableEq κ] (m : List (κ × β)) (k : κ)
    (h : ∀ p ∈ m, p.1 ≠ k) : aget? m k = Option.none := by
  induction m with
  | nil => rfl
  | cons p rest ih =>
    obtain ⟨k1, v1⟩ := p
    have hp : ¬(k1 = k) := h (k1, v1) (by simp)
    have h0 : aget? ((k1, v1) :: rest) k = if k1 = k then some v1 else aget? rest k := rfl
    rw [h0, if_neg hp]
    exact ih (fun q hq => h q (by simp [hq]))

theorem setMany_preserve (ps : List (Str × PyVal)) (t : Txn) (k : Str)
    (h : ∀ p ∈ ps, p.1 ≠ k) : aget? (setMany t ps) k = aget? t k := by
  rw [setMany_get]
  rw [aget?_eq_none ps.reverse k (fun p hp => h p (List.mem_reverse.mp hp))]

theorem nullFill_mem (t : Txn) (k : Str) (hk : k ∈ enrichFields) :
    aget? (nullFill t) k = some PyVal.vnone := by
  simp only [enrichFields] at hk
  fin_cases hk <;> (unfold nullFill; rw [setMany_get]; rfl)

theorem enrichOne_isSome (b : Option BestRes) (t : Txn) (k : Str) (hk : k ∈ enrichFields) :
    (aget? (enrichOne b t) k).isSome = true := by
  cases b with
  | none =>
    have h : enrichOne Option.none t = nullFill t := rfl
    rw [h, nullFill_mem t k hk]
    rfl
  | some br =>
    unfold enrichOne
    dsimp only
    split_ifs with h1 h2
    · simp only [enrichFields] at hk
      fin_cases hk <;> (rw [setMany_get]; rfl)
    · simp only [enrichFields] at hk
      fin_cases hk <;> (rw [setMany_get]; rfl)
    · rw [nullFill_mem t k hk]
      rfl

theorem enrichOne_comm_nulls (br : BestRes) (t : Txn) (k : Str)
    (hent : br.entity ≠ []) (hety : br.etype ≠ ("candidate").toList)
    (hk : k ∈ [fEntityNameFirst, fEntityNameLast, fEntityNameMiddle, fEntityElectionId,
      fEntityOffice, fEntityParty, fEntityEmail, fEntityPhone]) :
    aget? (enrichOne (some br) t) k = some PyVal.vnone := by
  unfold enrichOne
  dsimp only
  rw [if_pos hent, if_neg hety]
  fin_cases hk <;> (rw [setMany_get]; rfl)

theorem enrichOne_preserve (b : Option BestRes) (t : Txn) (k : Str)
    (hk : k ∉ enrichFields) : aget? (enrichOne b t) k = aget? t k := by
  have hnull : aget? (nullFill t) k = aget? t k := by
    unfold nullFill
    apply setMany_preserve
    intro p hp hpk
    apply hk
    rw [List.mem_map] at hp
    obtain ⟨f, hf, he⟩ := hp
    rw [← hpk, ← he]
    exact hf
  cases b with
  | none => exact hnull
  | some br =>
    unfold enrichOne
    dsimp only
    split_ifs with h1 h2
    · apply setMany_preserve
      intro p hp hpk
      apply hk
      rw [← hpk]
      fin_cases hp <;> simp [enrichFields]
    · apply setMany_preserve
      intro p hp hpk
      apply hk
      rw [← hpk]
      fin_cases hp <;> simp [enrichFields]
    · exact hnull

/-- C1 counterexample: an input transaction that already carries an
entity_type field does not keep its original value through the merge: the
enrichment overwrites it, so the output record is not a copy of the input
record holding every original field with its original value. -/
theorem C1_counterexample :
    aget? ((merge_with_transactions (fun _ _ => Option.none)
        [[(fEntityType, PyVal.vstr (("x").toList))]] (("name").toList) Option.none).getD 0 [])
      fEntityType ≠
      aget? (([[(fEntityType, PyVal.vstr (("x").toList))]] : List Txn).getD 0 [])
        fEntityType := by
  decide

/-- C1 (amended): merge_with_transactions returns [] on [], preserves
length, and output slot i is computed from input slot i with every field
outside the fixed enrichment field set keeping its original value; fields
named like enrichment fields may be overwritten, so the output is a
field-for-field copy only outside the enrichment field set. -/
theorem C1_merge_shape (resolve : PyVal → PyVal → Option BestRes) (txns : List Txn)
    (nf : Str) (pf : Option Str) :
    merge_with_transactions resolve [] nf pf = [] ∧
    (merge_with_transactions resolve txns nf pf).length = txns.length ∧
    (∀ i, i < txns.length → ∀ k, k ∉ enrichFields →
      aget? ((merge_with_transactions resolve txns nf pf).getD i []) k =
        aget? (txns.getD i []) k) := by
  refine ⟨rfl, merge_length resolve txns nf pf, fun i hi k hk => ?_⟩
  rw [merge_get_eq resolve txns nf pf i hi, enrichOne_preserve _ _ k hk]

/-- C1 witness: at a concrete one-transaction input, the account field of
the transaction survives enrichment unchanged in output slot 0. -/
theorem C1_witness :
    aget? ((merge_with_transactions (fun _ _ => Option.none) [exRow] (("name").toList)
        Option.none).getD 0 []) kAcctNum = aget? (([exRow] : List Txn).getD 0 []) kAcctNum :=
  (C1_merge_shape (fun _ _ => Option.none) [exRow] (("name").toList)
      Option.none).2.2 0 (by decide) kAcctNum (by decide)

/-- C2: every output record of merge_with_transactions carries the full
fixed enrichment field set; when the transaction's group resolves to no
match or to an empty entity (including every falsy-name transaction)
every enrichment field is None; and for a committee-typed match the
candidate-only fields are written as None rather than omitted. -/
theorem C2_uniform_schema (resolve : PyVal → PyVal → Option BestRes) (txns : List Txn)
    (nf : Str) (pf : Option Str) (i : ℕ) (hi : i < txns.length) :
    (∀ k ∈ enrichFields,
      (aget? ((merge_with_transactions resolve txns nf pf).getD i []) k).isSome = true) ∧
    ((∀ br, mergeRes resolve nf pf (txns.getD i []) = some br → br.entity = []) →
      ∀ k ∈ enrichFields,
        aget? ((merge_with_transactions resolve txns nf pf).getD i []) k =
          some PyVal.vnone) ∧
    (∀ br, mergeRes resolve nf pf (txns.getD i []) = some br → br.entity ≠ [] →
      br.etype ≠ ("candidate").toList →
      ∀ k ∈ [fEntityNameFirst, fEntityNameLast, fEntityNameMiddle, fEntityElectionId,
        fEntityOffice, fEntityParty, fEntityEmail, fEntityPhone],
        aget? ((merge_with_transactions resolve txns nf pf).getD i []) k =
          some PyVal.vnone) := by
  rw [merge_get_eq resolve txns nf pf i hi]
  refine ⟨fun k hk => enrichOne_isSome _ _ k hk, fun hun k hk => ?_,
    fun br hbr hent hety k hk => ?_⟩
  · cases hmr : mergeRes resolve nf pf (txns.getD i []) with
    | none =>
      have h : enrichOne Option.none (txns.getD i []) = nullFill (txns.getD i []) := rfl
      rw [h, nullFill_mem _ k hk]
    | some br =>
      have hbe : br.entity = [] := hun br hmr
      unfold enrichOne
      dsimp only
      have hne : ¬(br.entity ≠ []) := by simp [hbe]
      rw [if_neg hne]
      exact nullFill_mem _ k hk
  · rw [hbr]
    exact enrichOne_comm_nulls br _ k hent hety hk

/-- C2 witness: the schema theorem at a concrete unmatched transaction —
the entity_type field is present and None in output slot 0. -/
theorem C2_witness :
    aget? ((merge_with_transactions (fun _ _ => Option.none) [exRow] (("name").toList)
        Option.none).getD 0 []) fEntityType = some PyVal.vnone := by
  have hmr : mergeRes (fun _ _ => Option.none) (("name").toList) Option.none
      (([exRow] : List Txn).getD 0 []) = Option.none := rfl
  exact (C2_uniform_schema (fun _ _ => Option.none) [exRow] (("name").toList) Option.none 0
      (by decide)).2.1 (fun br hbr => absurd (hmr.symm.trans hbr) (by simp)) fEntityType
      (by decide)

/-! Character-level lemmas for the normalizers. -/

theorem pyLower_toNat_of_upper (c : Char) (h : 65 ≤ c.toNat ∧ c.toNat ≤ 90) :
    (pyLower c).toNat = c.toNat + 32 := by
  unfold pyLower
  rw [dif_pos h]
  show (c.val + 32).toNat = c.toNat + 32
  rw [UInt32.toNat_add]
  have h1 : ((32 : UInt32)).toNat = 32 := rfl
  have h2 : c.val.toNat = c.toNat := rfl
  rw [h1, h2]
  apply Nat.mod_eq_of_lt
  show c.toNat + 32 < 4294967296
  omega

theorem pyLower_eq_of_not_upper (c : Char) (h : ¬(65 ≤ c.toNat ∧ c.toNat ≤ 90)) :
    pyLower c = c := by
  unfold pyLower
  rw [dif_neg h]

theorem pyLower_idem (c : Char) : pyLower (pyLower c) = pyLower c := by
  by_cases h : 65 ≤ c.toNat ∧ c.toNat ≤ 90
  · have ht : (pyLower c).toNat = c.toNat + 32 := pyLower_toNat_of_upper c h
    apply pyLower_eq_of_not_upper
    rw [ht]
    omega
  · rw [pyLower_eq_of_not_upper c h, pyLower_eq_of_not_upper c h]

theorem isSpace_false_of_65_le (c : Char) (h : 65 ≤ c.toNat) : isSpace c = false := by
  by_contra hne
  rw [Bool.not_eq_false] at hne
  unfold isSpace at hne
  simp only [Bool.or_eq_true, decide_eq_true_eq, or_assoc] at hne
  rcases hne with he | he | he | he | he | he <;> exact absurd (he ▸ h) (by decide)

theorem isSpace_pyLower (c : Char) : isSpace (pyLower c) = isSpace c := by
  by_cases h : 65 ≤ c.toNat ∧ c.toNat ≤ 90
  · have ht : (pyLower c).toNat = c.toNat + 32 := pyLower_toNat_of_upper c h
    rw [isSpace_false_of_65_le (pyLower c) (by omega), isSpace_false_of_65_le c h.1]
  · rw [pyLower_eq_of_not_upper c h]

/-! Word-splitting lemmas: str.split() yields nonempty space-free words,
' '.join is inverted by a further split, and the joined form is stable
under strip and whitespace collapse. -/

theorem wordsAux_nil (acc : Str) :
    wordsAux [] acc = if acc = [] then [] else [acc.reverse] := rfl

theorem wordsAux_cons (c : Char) (rest acc : Str) :
    wordsAux (c :: rest) acc =
      if isSpace c then
        (if acc = [] then wordsAux rest [] else acc.reverse :: wordsAux rest [])
      else wordsAux rest (c :: acc) := rfl

theorem wordsAux_words (s : Str) : ∀ acc : Str, (∀ c ∈ acc, isSpace c = false) →
    ∀ w ∈ wordsAux s acc, w ≠ [] ∧ ∀ c ∈ w, isSpace c = false := by
  induction s with
  | nil =>
    intro acc hacc w hw
    rw [wordsAux_nil] at hw
    split_ifs at hw with h
    · exact absurd hw (List.not_mem_nil w)
    · simp only [List.mem_singleton] at hw
      subst hw
      exact ⟨by simp [h], fun c hc => hacc c (List.mem_reverse.mp hc)⟩
  | cons c rest ih =>
    intro acc hacc w hw
    rw [wordsAux_cons] at hw
    split_ifs at hw with h1 h2
    · exact ih [] (by simp) w hw
    · rcases List.mem_cons.mp hw with he | hm
      · subst he
        exact ⟨by simp [h2], fun d hd => hacc d (List.mem_reverse.mp hd)⟩
      · exact ih [] (by simp) w hm
    · refine ih (c :: acc) ?_ w hw
      intro d hd
      rcases List.mem_cons.mp hd with he | hm
      · subst he
        rwa [Bool.not_eq_true] at h1
      · exact hacc d hm

theorem pySplit_words (s : Str) :
    ∀ w ∈ pySplit s, w ≠ [] ∧ ∀ c ∈ w, isSpace c = false :=
  wordsAux_words s [] (by simp)

theorem wordsAux_append_word : ∀ w : Str, (∀ c ∈ w, isSpace c = false) →
    ∀ s acc : Str, wordsAux (w ++ s) acc = wordsAux s (w.reverse ++ acc) := by
  intro w
  induction w with
  | nil => intro _ s acc; simp
  | cons c w' ih =>
    intro hw s acc
    have hc : isSpace c = false := hw c (by simp)
    have hcn : ¬(isSpace c = true) := by simp [hc]
    rw [List.cons_append, wordsAux_cons, if_neg hcn,
      ih (fun d hd => hw d (by simp [hd])) s (c :: acc)]
    congr 1
    simp

theorem joinSp_pair (w x : Str) (rest : List Str) :
    joinSp (w :: x :: rest) = w ++ ' ' :: joinSp (x :: rest) := rfl

theorem pySplit_joinSp : ∀ ws : List Str,
    (∀ w ∈ ws, w ≠ [] ∧ ∀ c ∈ w, isSpace c = false) →
    pySplit (joinSp ws) = ws := by
  intro ws
  induction ws with
  | nil => intro _; rfl
  | cons w ws' ih =>
    intro h
    obtain ⟨hne, hsf⟩ := h w (by simp)
    have hrn : ¬(w.reverse = []) := by simp [hne]
    rcases ws' with _ | ⟨x, rest⟩
    · show pySplit (joinSp [w]) = [w]
      have h1 : joinSp [w] = w := rfl
      rw [h1]
      show wordsAux w [] = [w]
      have h2 := wordsAux_append_word w hsf [] []
      rw [List.append_nil, List.append_nil] at h2
      rw [h2, wordsAux_nil, if_neg hrn]
      simp
    · rw [joinSp_pair]
      show wordsAux (w ++ ' ' :: joinSp (x :: rest)) [] = w :: x :: rest
      have h2 := wordsAux_append_word w hsf (' ' :: joinSp (x :: rest)) []
      rw [List.append_nil] at h2
      rw [h2, wordsAux_cons]
      have hsp : isSpace ' ' = true := rfl
      rw [if_pos hsp, if_neg hrn, List.reverse_reverse]
      have h3 : wordsAux (joinSp (x :: rest)) [] = x :: rest :=
        ih (fun v hv => h v (by simp [hv]))
      rw [h3]

theorem wordsAux_flatten (s : Str) : ∀ acc : Str,
    (wordsAux s acc).flatten = acc.reverse ++ s.filter (fun c => !isSpace c) := by
  induction s with
  | nil =>
    intro acc
    rw [wordsAux_nil]
    split_ifs with h
    · simp [h]
    · simp
  | cons c rest ih =>
    intro acc
    rw [wordsAux_cons]
    split_ifs with h1 h2
    · simp [ih, h1, h2]
    · simp [ih, h1]
    · rw [ih (c :: acc)]
      have h1f : isSpace c = false := by rwa [Bool.not_eq_true] at h1
      simp [h1f]

theorem filter_joinSp : ∀ ws : List Str, (∀ w ∈ ws, ∀ c ∈ w, isSpace c = false) →
    (joinSp ws).filter (fun c => !isSpace c) = ws.flatten := by
  intro ws
  induction ws with
  | nil => intro _; rfl
  | cons w ws' ih =>
    intro h
    have hw : w.filter (fun c => !isSpace c) = w :=
      List.filter_eq_self.mpr (fun a ha => by simp [h w (by simp) a ha])
    rcases ws' with _ | ⟨x, rest⟩
    · show w.filter (fun c => !isSpace c) = [w].flatten
      rw [hw]
      simp
    · rw [joinSp_pair, List.filter_append]
      have h2 : (' ' :: joinSp (x :: rest)).filter (fun c => !isSpace c) =
          (joinSp (x :: rest)).filter (fun c => !isSpace c) := by
        rw [List.filter_cons]
        simp [show isSpace ' ' = true from rfl]
      rw [h2, ih (fun v hv => h v (by simp [hv])), hw]
      simp

theorem filter_collapse (s : Str) :
    (collapse s).filter (fun c => !isSpace c) = s.filter (fun c => !isSpace c) := by
  show (joinSp (pySplit s)).filter (fun c => !isSpace c) = s.filter (fun c => !isSpace c)
  rw [filter_joinSp (pySplit s) (fun w hw => (pySplit_words s w hw).2)]
  show (wordsAux s []).flatten = s.filter (fun c => !isSpace c)
  rw [wordsAux_flatten s []]
  simp

theorem mem_collapse_of_nonspace (s : Str) (a : Char) (ha : isSpace a = false)
    (h : a ∈ collapse s) : a ∈ s := by
  have h1 : a ∈ (collapse s).filter (fun c => !isSpace c) :=
    List.mem_filter.mpr ⟨h, by simp [ha]⟩
  rw [filter_collapse] at h1
  exact (List.mem_filter.mp h1).1

theorem joinSp_head (w : Str) (ws : List Str) (c : Char) (t : Str) (hw : w = c :: t) :
    ∃ u, joinSp (w :: ws) = c :: u := by
  rcases ws with _ | ⟨x, rest⟩
  · exact ⟨t, by rw [show joinSp [w] = w from rfl, hw]⟩
  · rw [joinSp_pair, hw]
    exact ⟨t ++ ' ' :: joinSp (x :: rest), rfl⟩

theorem joinSp_rev_head : ∀ ws : List Str,
    ws ≠ [] → (∀ w ∈ ws, w ≠ [] ∧ ∀ c ∈ w, isSpace c = false) →
    ∃ c u, (joinSp ws).reverse = c :: u ∧ isSpace c = false := by
  intro ws
  induction ws with
  | nil => intro h _; exact absurd rfl h
  | cons w ws' ih =>
    intro _ h
    obtain ⟨hne, hsf⟩ := h w (by simp)
    rcases ws' with _ | ⟨x, rest⟩
    · rcases hr : w.reverse with _ | ⟨c, u⟩
      · exact absurd (List.reverse_eq_nil_iff.mp hr) hne
      · refine ⟨c, u, by rw [show joinSp [w] = w from rfl, hr], ?_⟩
        have hcw : c ∈ w := by
          have : c ∈ w.reverse := by rw [hr]; simp
          exact List.mem_reverse.mp this
        exact hsf c hcw
    · obtain ⟨c, u, hcu, hcs⟩ := ih (by simp) (fun v hv => h v (by simp [hv]))
      refine ⟨c, u ++ [' '] ++ w.reverse, ?_, hcs⟩
      rw [joinSp_pair]
      rw [List.reverse_append, List.reverse_cons, hcu]
      simp

theorem stripWs_joinSp (ws : List Str)
    (h : ∀ w ∈ ws, w ≠ [] ∧ ∀ c ∈ w, isSpace c = false) :
    stripWs (joinSp ws) = joinSp ws := by
  rcases ws with _ | ⟨w, ws'⟩
  · rfl
  · obtain ⟨hne, hsf⟩ := h w (by simp)
    obtain ⟨c, t, hct⟩ := List.exists_cons_of_ne_nil hne
    have hc : isSpace c = false := hsf c (by rw [hct]; simp)
    have hcn : ¬(isSpace c = true) := by simp [hc]
    obtain ⟨u, hu⟩ := joinSp_head w ws' c t hct
    obtain ⟨c2, u2, hcu2, hc2⟩ := joinSp_rev_head (w :: ws') (by simp) h
    have hcn2 : ¬(isSpace c2 = true) := by simp [hc2]
    show ((((joinSp (w :: ws')).dropWhile isSpace).reverse.dropWhile isSpace)).reverse =
      joinSp (w :: ws')
    rw [hu, List.dropWhile_cons, if_neg hcn, ← hu, hcu2, List.dropWhile_cons, if_neg hcn2,
      ← hcu2, List.reverse_reverse]

theorem stripWs_collapse (s : Str) : stripWs (collapse s) = collapse s :=
  stripWs_joinSp (pySplit s) (pySplit_words s)

theorem collapse_collapse (s : Str) : collapse (collapse s) = collapse s := by
  show joinSp (pySplit (joinSp (pySplit s))) = joinSp (pySplit s)
  rw [pySplit_joinSp (pySplit s) (pySplit_words s)]

theorem joinSp_map_lower : ∀ ws : List Str,
    (joinSp ws).map pyLower = joinSp (ws.map (fun w => w.map pyLower)) := by
  intro ws
  induction ws with
  | nil => rfl
  | cons w ws' ih =>
    rcases ws' with _ | ⟨x, rest⟩
    · rfl
    · have hsp : pyLower ' ' = ' ' := pyLower_eq_of_not_upper ' ' (by decide)
      rw [joinSp_pair, List.map_append, List.map_cons, hsp, ih]
      rfl

/-! Parenthesis-removal lemmas: the re.sub output never has an open
parenthesis followed by a close parenthesis, and the pass is the
identity exactly on such strings. -/

theorem pairFreeB_cons (c : Char) (rest : Str) :
    pairFreeB (c :: rest) = if c = '(' then !rest.contains ')' else pairFreeB rest := rfl

theorem rpGo_nil_some (acc : Str) : rpGo [] (some acc) = '(' :: acc.reverse := rfl

theorem rpGo_cons_none (c : Char) (rest : Str) :
    rpGo (c :: rest) Option.none =
      if c = '(' then rpGo rest (some []) else c :: rpGo rest Option.none := rfl

theorem rpGo_cons_some (c : Char) (rest acc : Str) :
    rpGo (c :: rest) (some acc) =
      if c = ')' then rpGo rest Option.none else rpGo rest (some (c :: acc)) := rfl

theorem pairFreeB_iff (s : Str) : pairFreeB s = true ↔ ¬ List.Sublist ['(', ')'] s := by
  induction s with
  | nil =>
    constructor
    · intro _ hsub
      simp at hsub
    · intro _
      rfl
  | cons c rest ih =>
    by_cases hc : c = '('
    · subst hc
      rw [pairFreeB_cons, if_pos rfl]
      have hiff : List.Sublist ['(', ')'] ('(' :: rest) ↔ ')' ∈ rest := by
        constructor
        · intro hsub
          rw [List.sublist_cons_iff] at hsub
          rcases hsub with hsub | ⟨r, hr, hrsub⟩
          · exact hsub.subset (by simp)
          · injection hr with h1 h2
            rw [← h2] at hrsub
            exact List.singleton_sublist.mp hrsub
        · intro hm
          exact List.Sublist.cons₂ '(' (List.singleton_sublist.mpr hm)
      constructor
      · intro h hsub
        have hm : ')' ∈ rest := hiff.mp hsub
        rw [Bool.not_eq_true'] at h
        have hnm : ')' ∉ rest := by simpa using h
        exact hnm hm
      · intro h
        have hnm : ')' ∉ rest := fun hm => h (hiff.mpr hm)
        rw [Bool.not_eq_true']
        simpa using hnm
    · rw [pairFreeB_cons, if_neg hc]
      have hiff : List.Sublist ['(', ')'] (c :: rest) ↔ List.Sublist ['(', ')'] rest := by
        constructor
        · intro hsub
          rw [List.sublist_cons_iff] at hsub
          rcases hsub with hsub | ⟨r, hr, hrsub⟩
          · exact hsub
          · injection hr with h1 h2
            exact absurd h1.symm hc
        · intro hsub
          exact hsub.cons c
      rw [ih, hiff]

theorem rpGo_mem (s : Str) (a : Char) :
    (a ∈ rpGo s Option.none → a = '(' ∨ a ∈ s) ∧
    (∀ acc, a ∈ rpGo s (some acc) → a = '(' ∨ a ∈ acc ∨ a ∈ s) := by
  induction s with
  | nil =>
    constructor
    · intro h
      exact absurd h (List.not_mem_nil a)
    · intro acc h
      rw [rpGo_nil_some] at h
      rcases List.mem_cons.mp h with he | hm
      · exact Or.inl he
      · exact Or.inr (Or.inl (List.mem_reverse.mp hm))
  | cons c rest ih =>
    constructor
    · intro h
      by_cases hc : c = '('
      · rw [rpGo_cons_none, if_pos hc] at h
        rcases ih.2 [] h with h1 | h1 | h1
        · exact Or.inl h1
        · exact absurd h1 (List.not_mem_nil a)
        · exact Or.inr (by simp [h1])
      · rw [rpGo_cons_none, if_neg hc] at h
        rcases List.mem_cons.mp h with he | hm
        · exact Or.inr (by simp [he])
        · rcases ih.1 hm with h1 | h1
          · exact Or.inl h1
          · exact Or.inr (by simp [h1])
    · intro acc h
      by_cases hc : c = ')'
      · rw [rpGo_cons_some, if_pos hc] at h
        rcases ih.1 h with h1 | h1
        · exact Or.inl h1
        · exact Or.inr (Or.inr (by simp [h1]))
      · rw [rpGo_cons_some, if_neg hc] at h
        rcases ih.2 (c :: acc) h with h1 | h1 | h1
        · exact Or.inl h1
        · rcases List.mem_cons.mp h1 with he | hm
          · exact Or.inr (Or.inr (by simp [he]))
          · exact Or.inr (Or.inl hm)
        · exact Or.inr (Or.inr (by simp [h1]))

theorem rpGo_pairFree : ∀ s : Str,
    pairFreeB (rpGo s Option.none) = true ∧
    ∀ acc, ')' ∉ acc → pairFreeB (rpGo s (some acc)) = true := by
  intro s
  induction s with
  | nil =>
    refine ⟨rfl, fun acc hacc => ?_⟩
    rw [rpGo_nil_some, pairFreeB_cons, if_pos rfl, Bool.not_eq_true']
    have : ')' ∉ acc.reverse := by
      rw [List.mem_reverse]
      exact hacc
    simpa using this
  | cons c rest ih =>
    constructor
    · by_cases hc : c = '('
      · rw [rpGo_cons_none, if_pos hc]
        exact ih.2 [] (by simp)
      · rw [rpGo_cons_none, if_neg hc, pairFreeB_cons, if_neg hc]
        exact ih.1
    · intro acc hacc
      by_cases hc : c = ')'
      · rw [rpGo_cons_some, if_pos hc]
        exact ih.1
      · rw [rpGo_cons_some, if_neg hc]
        refine ih.2 (c :: acc) ?_
        intro hmem
        rcases List.mem_cons.mp hmem with he | hm
        · exact hc he.symm
        · exact hacc hm

theorem rpGo_some_no_close : ∀ s : Str, ')' ∉ s → ∀ acc,
    rpGo s (some acc) = '(' :: acc.reverse ++ s := by
  intro s
  induction s with
  | nil =>
    intro _ acc
    rw [rpGo_nil_some]
    simp
  | cons c rest ih =>
    intro h acc
    have hc : ¬(c = ')') := fun he => h (by simp [he])
    rw [rpGo_cons_some, if_neg hc, ih (fun hm => h (by simp [hm])) (c :: acc)]
    simp

theorem removeParens_of_pairFree : ∀ s : Str, pairFreeB s = true → removeParens s = s := by
  intro s
  induction s with
  | nil => intro _; rfl
  | cons c rest ih =>
    intro h
    rw [pairFreeB_cons] at h
    unfold removeParens
    by_cases hc : c = '('
    · rw [if_pos hc, Bool.not_eq_true'] at h
      have hnc : ')' ∉ rest := by simpa using h
      rw [rpGo_cons_none, if_pos hc, rpGo_some_no_close rest hnc []]
      simp [hc]
    · rw [if_neg hc] at h
      rw [rpGo_cons_none, if_neg hc]
      have h2 := ih h
      unfold removeParens at h2
      rw [h2]

theorem pairFreeB_sublist (s t : Str) (hsub : List.Sublist t s) (h : pairFreeB s = true) :
    pairFreeB t = true := by
  rw [pairFreeB_iff] at h ⊢
  exact fun hp => h (hp.trans hsub)

theorem pairFreeB_collapse (s : Str) (h : pairFreeB s = true) :
    pairFreeB (collapse s) = true := by
  rw [pairFreeB_iff] at h ⊢
  intro hp
  apply h
  have h1 := List.Sublist.filter (fun c => !isSpace c) hp
  rw [filter_collapse] at h1
  have h2 : (['(', ')'] : Str).filter (fun c => !isSpace c) = ['(', ')'] := rfl
  rw [h2] at h1
  exact h1.trans (List.filter_sublist s)

/-! Honorific-suffix lemmas: the candidate suffix pattern requires a
comma, so the pass is the identity on comma-free strings. -/

theorem removeCandSuffix_sublist : ∀ s : Str, List.Sublist (removeCandSuffix s) s := by
  intro s
  induction s with
  | nil => exact List.Sublist.refl []
  | cons c rest ih =>
    unfold removeCandSuffix
    split_ifs
    · exact List.nil_sublist _
    · exact List.Sublist.cons₂ c ih

theorem candSuffixFrom_comma (s : Str) (h : candSuffixFrom s = true) : ',' ∈ s := by
  unfold candSuffixFrom at h
  dsimp only at h
  rw [Bool.and_eq_true] at h
  obtain ⟨h1, h2⟩ := h
  split at h2
  · rename_i r2 heq
    have hm : ',' ∈ s.dropWhile isSpace := by
      rw [heq]
      simp
    exact (List.dropWhile_sublist isSpace).subset hm
  · simp at h2

theorem removeCandSuffix_of_no_comma : ∀ s : Str, ',' ∉ s → removeCandSuffix s = s := by
  intro s
  induction s with
  | nil => intro _; rfl
  | cons c rest ih =>
    intro h
    unfold removeCandSuffix
    have hcs : ¬(candSuffixFrom (c :: rest) = true) := by
      intro hne
      exact h (candSuffixFrom_comma _ hne)
    rw [if_neg hcs, ih (fun hm => h (by simp [hm]))]

/-! Strip lemmas. -/

theorem pyStrip_id_of_not (p : Char → Bool) (s : Str) (h : ∀ c ∈ s, p c = false) :
    pyStrip p s = s := by
  have hdw : ∀ t : Str, (∀ c ∈ t, p c = false) → t.dropWhile p = t := by
    intro t ht
    cases t with
    | nil => rfl
    | cons c rest =>
      have hcn : ¬(p c = true) := by simp [ht c (by simp)]
      rw [List.dropWhile_cons, if_neg hcn]
  show ((s.dropWhile p).reverse.dropWhile p).reverse = s
  rw [hdw s h, hdw s.reverse (fun c hc => h c (List.mem_reverse.mp hc)), List.reverse_reverse]

theorem stripComma_id (s : Str) (h : ',' ∉ s) : stripComma s = s := by
  unfold stripComma
  apply pyStrip_id_of_not
  intro c hc
  simp only [decide_eq_false_iff_not]
  intro he
  exact h (he ▸ hc)

/-! Branch-value equations for the two normalizers. -/

theorem normalize_name_val (s : Str) (hs : ¬(s = [])) :
    normalize_name s =
      stripWs (stripComma (stripWs (collapse (removeCandSuffix (removeParens s))))) := by
  unfold normalize_name
  rw [if_neg hs]

theorem normalize_committee_val (s : Str) (b : Bool) (hs : ¬(s = [])) :
    normalize_committee_name s b =
      (if b then (stripWs (collapse (removeComSuffix s))).map pyLower
       else stripWs (collapse (removeComSuffix s))) := by
  unfold normalize_committee_name
  rw [if_neg hs]

/-! Conditional idempotence of the two normalizers. -/

theorem normalize_name_idem_of_no_comma (n : Str) (hc : ',' ∉ n) :
    normalize_name (normalize_name n) = normalize_name n := by
  by_cases hn : n = []
  · subst hn
    have h0 : normalize_name ([] : Str) = [] := rfl
    rw [h0]
    exact h0
  · have hc1 : ',' ∉ removeParens n := by
      intro hm
      rcases (rpGo_mem n ',').1 hm with he | hmem
      · exact absurd he (by decide)
      · exact hc hmem
    have hc2 : ',' ∉ removeCandSuffix (removeParens n) :=
      fun hm => hc1 ((removeCandSuffix_sublist _).subset hm)
    have hc3 : ',' ∉ collapse (removeCandSuffix (removeParens n)) :=
      fun hm => hc2 (mem_collapse_of_nonspace _ ',' (by decide) hm)
    have ht : normalize_name n = collapse (removeCandSuffix (removeParens n)) := by
      rw [normalize_name_val n hn, stripWs_collapse, stripComma_id _ hc3, stripWs_collapse]
    have hpf2 : pairFreeB (removeCandSuffix (removeParens n)) = true :=
      pairFreeB_sublist _ _ (removeCandSuffix_sublist _) (rpGo_pairFree n).1
    have hpft : pairFreeB (collapse (removeCandSuffix (removeParens n))) = true :=
      pairFreeB_collapse _ hpf2
    rw [ht]
    by_cases h0 : collapse (removeCandSuffix (removeParens n)) = []
    · rw [h0]
      rfl
    · rw [normalize_name_val _ h0, removeParens_of_pairFree _ hpft,
        removeCandSuffix_of_no_comma _ hc3, collapse_collapse, stripWs_collapse,
        stripComma_id _ hc3]
      exact stripWs_collapse _

theorem normalize_committee_idem_of_stable (n : Str) (b : Bool)
    (hrem : removeComSuffix (normalize_committee_name n b) = normalize_committee_name n b) :
    normalize_committee_name (normalize_committee_name n b) b =
      normalize_committee_name n b := by
  by_cases hn : n = []
  · subst hn
    have h0 : normalize_committee_name ([] : Str) b = [] := rfl
    rw [h0]
    exact h0
  · by_cases hr0 : normalize_committee_name n b = []
    · rw [hr0]
      cases b <;> rfl
    · cases b with
      | false =>
        have ht : normalize_committee_name n false = collapse (removeComSuffix n) := by
          rw [normalize_committee_val n false hn]
          show stripWs (collapse (removeComSuffix n)) = collapse (removeComSuffix n)
          exact stripWs_collapse _
        rw [normalize_committee_val _ false hr0, hrem]
        show stripWs (collapse (normalize_committee_name n false)) =
          normalize_committee_name n false
        rw [ht, collapse_collapse]
        exact stripWs_collapse _
      | true =>
        have ht : normalize_committee_name n true =
            (collapse (removeComSuffix n)).map pyLower := by
          rw [normalize_committee_val n true hn]
          show (stripWs (collapse (removeComSuffix n))).map pyLower = _
          rw [stripWs_collapse]
        have hmap : (collapse (removeComSuffix n)).map pyLower =
            joinSp ((pySplit (removeComSuffix n)).map (fun w => w.map pyLower)) :=
          joinSp_map_lower (pySplit (removeComSuffix n))
        have hws1 : ∀ w ∈ (pySplit (removeComSuffix n)).map (fun w => w.map pyLower),
            w ≠ [] ∧ ∀ c ∈ w, isSpace c = false := by
          intro w hw
          rw [List.mem_map] at hw
          obtain ⟨v, hv, hvw⟩ := hw
          obtain ⟨hne, hsf⟩ := pySplit_words _ v hv
          subst hvw
          constructor
          · intro he
            exact hne (List.map_eq_nil_iff.mp he)
          · intro c hcm
            rw [List.mem_map] at hcm
            obtain ⟨d, hd, hdc⟩ := hcm
            rw [← hdc, isSpace_pyLower]
            exact hsf d hd
        rw [normalize_committee_val _ true hr0, hrem]
        show (stripWs (collapse (normalize_committee_name n true))).map pyLower =
          normalize_committee_name n true
        rw [ht, hmap]
        have hcol : collapse (joinSp ((pySplit (removeComSuffix n)).map
            (fun w => w.map pyLower))) =
            joinSp ((pySplit (removeComSuffix n)).map (fun w => w.map pyLower)) := by
          show joinSp (pySplit (joinSp ((pySplit (removeComSuffix n)).map
            (fun w => w.map pyLower)))) = _
          rw [pySplit_joinSp _ hws1]
        rw [hcol, stripWs_joinSp _ hws1, joinSp_map_lower]
        have hmm : ((pySplit (removeComSuffix n)).map (fun w => w.map pyLower)).map
            (fun w => w.map pyLower) =
            (pySplit (removeComSuffix n)).map (fun w => w.map pyLower) := by
          rw [List.map_map]
          apply List.map_congr_left
          intro v hv
          show (v.map pyLower).map pyLower = v.map pyLower
          rw [List.map_map]
          apply List.map_congr_left
          intro d hd
          exact pyLower_idem d
        rw [hmm]

/-- C9 counterexample: neither normalizer is idempotent on all inputs.
The candidate normalizer's comma strip can expose a new trailing
honorific suffix that only a second pass removes, and the committee
normalizer removes exactly one trailing designator per pass, so a name
ending in two designators changes again on the second pass. -/
theorem C9_counterexample :
    (normalize_name (normalize_name (("A , Jr,").toList)) ≠
      normalize_name (("A , Jr,").toList)) ∧
    (normalize_committee_name (normalize_committee_name (("X INC PC").toList) true) true ≠
      normalize_committee_name (("X INC PC").toList) true) := by
  constructor <;> decide

/-- C9 (amended): the candidate name normalizer is idempotent on every
name containing no comma, and the committee name normalizer is idempotent
on every input whose normal form no longer starts a designator-suffix
match (one designator is removed per pass). Unrestricted idempotence
fails for both normalizers. -/
theorem C9_normalize_idempotent :
    (∀ n : Str, ',' ∉ n → normalize_name (normalize_name n) = normalize_name n) ∧
    (∀ (n : Str) (b : Bool),
      removeComSuffix (normalize_committee_name n b) = normalize_committee_name n b →
      normalize_committee_name (normalize_committee_name n b) b =
        normalize_committee_name n b) :=
  ⟨normalize_name_idem_of_no_comma, normalize_committee_idem_of_stable⟩

/-- C9 witness: the amended idempotence at concrete inputs — a comma-free
candidate name and a committee name whose normal form keeps no designator. -/
theorem C9_witness :
    ((',' ∉ (("John Smith").toList)) ∧
      normalize_name (normalize_name (("John Smith").toList)) =
        normalize_name (("John Smith").toList)) ∧
    ((removeComSuffix (normalize_committee_name (("x y").toList) true) =
        normalize_committee_name (("x y").toList) true) ∧
      normalize_committee_name (normalize_committee_name (("x y").toList) true) true =
        normalize_committee_name (("x y").toList) true) :=
  ⟨⟨by decide, C9_normalize_idempotent.1 (("John Smith").toList) (by decide)⟩,
   ⟨by decide, C9_normalize_idempotent.2 (("x y").toList) true (by decide)⟩⟩

end SunScrape
